import Mathlib

/-!
# Verification of the snake auto-move engine

Shallow embedding of the grid-navigation core of the repository
(`getNeighbors`, `getPath`, `getAccessibleAreaSize`, `getNextAutoMove` —
the simulate-then-filter variant of the decision policy, which is the one
the specification describes in §4.6) together with proofs of the claims
extracted from the natural-language specification.

The board constants come from `constants.ts` (`BOARD_WIDTH = BOARD_HEIGHT = 25`),
the `Point`/`Direction` types from `types.ts`.  JavaScript `Set<string>` keys
`"x,y"` are in bijection with points, so obstacle/visited sets are modelled as
lists of points with membership up to point equality.  The two unbounded
`while (queue.length > 0)` loops are modelled with an explicit fuel parameter;
a fuel-sufficiency lemma shows the chosen fuel can never run out on the
25×25 board, so the fuelled functions compute exactly what the source loops do.
-/

namespace SnakeAI

/-- `Point` from `types.ts`: an integer coordinate pair. -/
structure Point where
  x : Int
  y : Int
deriving DecidableEq, Repr, Inhabited

/-- `Direction` from `types.ts`. -/
inductive Direction where
  | UP
  | DOWN
  | LEFT
  | RIGHT
deriving DecidableEq, Repr, Inhabited

/-- `BOARD_WIDTH` from `constants.ts`. -/
def BOARD_WIDTH : Int := 25

/-- `BOARD_HEIGHT` from `constants.ts`. -/
def BOARD_HEIGHT : Int := 25

/-- The unit delta of a direction applied to a point, as written inline in the
source's move tables (`UP` is `y - 1`, `DOWN` is `y + 1`, etc.). -/
def step (p : Point) (d : Direction) : Point :=
  match d with
  | Direction.UP => ⟨p.x, p.y - 1⟩
  | Direction.DOWN => ⟨p.x, p.y + 1⟩
  | Direction.LEFT => ⟨p.x - 1, p.y⟩
  | Direction.RIGHT => ⟨p.x + 1, p.y⟩

/-- `isSamePoint` from the source. -/
def isSamePoint (p1 p2 : Point) : Bool :=
  p1.x == p2.x && p1.y == p2.y

/-- Membership of a point in a list of points; models `Set<string>.has` on
`"x,y"` keys (the key function is injective on integer points). -/
def memPoint (p : Point) (l : List Point) : Bool :=
  l.any (fun q => isSamePoint q p)

/-- The bounds check written inline in the source:
`x < 0 || x >= BOARD_WIDTH || y < 0 || y >= BOARD_HEIGHT` rejected. -/
def inBounds (p : Point) : Bool :=
  !(decide (p.x < 0) || decide (BOARD_WIDTH ≤ p.x) ||
    decide (p.y < 0) || decide (BOARD_HEIGHT ≤ p.y))

/-- The fixed move enumeration order used everywhere in the source:
UP, DOWN, LEFT, RIGHT, each paired with the resulting cell. -/
def moveTable (p : Point) : List (Direction × Point) :=
  [(Direction.UP, step p Direction.UP),
   (Direction.DOWN, step p Direction.DOWN),
   (Direction.LEFT, step p Direction.LEFT),
   (Direction.RIGHT, step p Direction.RIGHT)]

/-- `getNeighbors` from the source: the in-bounds, non-obstacle entries of the
move table, in enumeration order. -/
def getNeighbors (p : Point) (obs : List Point) : List (Direction × Point) :=
  (moveTable p).filter (fun m => inBounds m.2 && !memPoint m.2 obs)

/-- The body of the `for (const {point: nextPoint, direction} of neighbors)`
loop of `getPath`: push each not-yet-visited neighbor at the back of the queue
(with its extended path) and mark it visited, sequentially. -/
def pushNeighbors (path : List Direction) :
    List (Direction × Point) → List (Point × List Direction) → List Point →
    List (Point × List Direction) × List Point
  | [], queue, visited => (queue, visited)
  | m :: ms, queue, visited =>
    if memPoint m.2 visited then
      pushNeighbors path ms queue visited
    else
      pushNeighbors path ms (queue ++ [(m.2, path ++ [m.1])]) (m.2 :: visited)

/-- The `while (queue.length > 0)` loop of `getPath`, with fuel.
`none` means the fuel ran out (never happens with the fuel used by `getPath`,
see `getPathAux_fuel`); `some none` is the source's `return null`
(queue exhausted); `some (some path)` is the source's `return path`. -/
def getPathAux (target : Point) (obs : List Point) :
    Nat → List (Point × List Direction) → List Point →
    Option (Option (List Direction))
  | 0, _, _ => none
  | _ + 1, [], _ => some none
  | fuel + 1, (p, path) :: rest, visited =>
    if isSamePoint p target then some (some path)
    else
      getPathAux target obs fuel
        (pushNeighbors path (getNeighbors p obs) rest visited).1
        (pushNeighbors path (getNeighbors p obs) rest visited).2

/-- `getPath` from the source: breadth-first search from `start` towards
`target` avoiding `obs`, returning the direction sequence of a shortest path,
or `none` if the target is unreachable.  The loop runs at most
`1 + (number of in-bounds cells)` iterations, so fuel `1000` never runs out
(`getPath_fuel_le`). -/
def getPath (start target : Point) (obs : List Point) :
    Option (List Direction) :=
  (getPathAux target obs 1000 [(start, [])] [start]).getD none

/-- The neighbor-scanning body of the flood-fill loop of
`getAccessibleAreaSize`: bounds check, then visited/obstacle check, then
push and mark visited, sequentially over the four moves. -/
def floodPush (obs : List Point) :
    List Point → List Point → List Point → List Point × List Point
  | [], queue, visited => (queue, visited)
  | n :: ns, queue, visited =>
    if inBounds n && (!memPoint n visited && !memPoint n obs) then
      floodPush obs ns (queue ++ [n]) (n :: visited)
    else
      floodPush obs ns queue visited

/-- The `while (queue.length > 0)` loop of `getAccessibleAreaSize`, with fuel
(`none` = fuel ran out, which the fuel chosen by `getAccessibleAreaSize`
makes impossible). -/
def getAreaAux (obs : List Point) :
    Nat → List Point → List Point → Nat → Option Nat
  | 0, _, _, _ => none
  | _ + 1, [], _, count => some count
  | fuel + 1, current :: rest, visited, count =>
    getAreaAux obs fuel
      (floodPush obs [⟨current.x, current.y - 1⟩, ⟨current.x, current.y + 1⟩,
        ⟨current.x - 1, current.y⟩, ⟨current.x + 1, current.y⟩] rest
        visited).1
      (floodPush obs [⟨current.x, current.y - 1⟩, ⟨current.x, current.y + 1⟩,
        ⟨current.x - 1, current.y⟩, ⟨current.x + 1, current.y⟩] rest
        visited).2
      (count + 1)

/-- `getAccessibleAreaSize` from the source: flood-fill count of the cells
reachable from `start` under obstacle set `obs` (counting `start` itself). -/
def getAccessibleAreaSize (start : Point) (obs : List Point) : Nat :=
  (getAreaAux obs 1000 [start] [start] 0).getD 0

/-! ## The decision policy (`getNextAutoMove`, simulate-then-filter variant)

The source computes everything inside one function body through local
constants (`head`, `possibleMoves`, `validMoves`, `safeMoves`, ...).  Those
local constants are lifted here to top-level definitions of the same names so
the claim theorems can speak about them; `getNextAutoMove` below assembles
them exactly in the source's control flow. -/

/-- `const head = snake[0]`.  The engine's precondition makes `snake`
non-empty; `headI`'s default value is never reached under it. -/
def headPt (snake : List Point) : Point := snake.headI

/-- `possibleMoves`: the four candidate first steps from the head, in the
fixed enumeration order UP, DOWN, LEFT, RIGHT. -/
def possibleMoves (snake : List Point) : List (Direction × Point) :=
  moveTable (headPt snake)

/-- `const neck = snake.length > 1 ? snake[1] : null`. -/
def neckOpt (snake : List Point) : Option Point := snake[1]?

/-- `validMoves`: candidates that are in bounds, not the neck cell, and not on
a body cell other than the current tail (`snake.slice(0, -1)`). -/
def validMoves (snake : List Point) : List (Direction × Point) :=
  (possibleMoves snake).filter (fun m =>
    inBounds m.2 &&
    (match neckOpt snake with
     | some n => !isSamePoint m.2 n
     | none => true) &&
    !memPoint m.2 snake.dropLast)

/-- The virtual body after taking a candidate step (`simulate`, §4.5):
`[nextHead, ...snake]` when the step eats the food, otherwise
`[nextHead, ...snake.slice(0, -1)]`. -/
def virtualSnake (snake : List Point) (food nextHead : Point) : List Point :=
  if isSamePoint nextHead food then nextHead :: snake
  else nextHead :: snake.dropLast

/-- `const virtualTail = virtualSnake[virtualSnake.length - 1]` (the virtual
body is never empty, so the default is never reached). -/
def virtualTail (snake : List Point) (food nextHead : Point) : Point :=
  (virtualSnake snake food nextHead).getLastD ⟨0, 0⟩

/-- `const obstaclesArr = virtualSnake.slice(0, -1)`: the safety-check
obstacle set, the virtual body with its own last cell excluded. -/
def virtualObstacles (snake : List Point) (food nextHead : Point) :
    List Point :=
  (virtualSnake snake food nextHead).dropLast

/-- The body of the `for (const move of validMoves)` simulation loop: `none`
when the candidate is unsafe (no path from the virtual head to the virtual
tail), otherwise the `{dir, distToFood}` record pushed onto `safeMoves`
(the source's `space: 0` placeholder field is unused and dropped). -/
def safeEval (snake : List Point) (food : Point) (m : Direction × Point) :
    Option (Direction × Option Nat) :=
  match getPath m.2 (virtualTail snake food m.2)
      (virtualObstacles snake food m.2) with
  | none => none
  | some _ =>
    some (m.1, (getPath m.2 food (virtualObstacles snake food m.2)).map
      List.length)

/-- `safeMoves`: the safe candidates, in enumeration order, each with its
virtual-head-to-food BFS distance (`null` when the food is unreachable). -/
def safeMoves (snake : List Point) (food : Point) :
    List (Direction × Option Nat) :=
  (validMoves snake).filterMap (safeEval snake food)

/-- `movesWithFood`: the safe candidates with a finite distance to food. -/
def movesWithFood (snake : List Point) (food : Point) :
    List (Direction × Option Nat) :=
  (safeMoves snake food).filter (fun m => m.2.isSome)

/-- Strategy A's `movesWithFood.sort((a, b) => a.distToFood! - b.distToFood!)`
followed by `[0]`: JavaScript's sort is stable, so sorting by distance and
taking the first element returns the first element of minimal distance in the
original (enumeration) order, which is what this fold computes. -/
def selectMinDist : List (Direction × Option Nat) → Option Direction
  | [] => none
  | m :: rest =>
    some ((rest.foldl (fun best x =>
      if x.2.getD 0 < best.2.getD 0 then x else best) m).1)

/-- The flood-fill score Strategy B computes for a safe move: the accessible
area from the candidate head where the obstacle set is the **whole** virtual
body (`new Set(virtualSnake.map(pKey))` — including the virtual tail), the
candidate cell being recovered from `validMoves.find(vm => vm.dir === sm.dir)`. -/
def tier2Space (snake : List Point) (food : Point) (d : Direction) : Nat :=
  match (validMoves snake).find? (fun vm => vm.1 == d) with
  | some vm => getAccessibleAreaSize vm.2 (virtualSnake snake food vm.2)
  | none => 0

/-- Strategy B: among safe moves, maximize `tier2Space`, starting from
`bestDir = safeMoves[0].dir` and `maxSpace = -1`, a strict `>` keeping the
first maximizer. -/
def tier2Choice (snake : List Point) (food : Point) : Option Direction :=
  match safeMoves snake food with
  | [] => none
  | sm :: rest =>
    some (((sm :: rest).foldl (fun (acc : Direction × Int) x =>
      if acc.2 < ((tier2Space snake food x.1 : Nat) : Int)
      then (x.1, ((tier2Space snake food x.1 : Nat) : Int))
      else acc) (sm.1, -1)).1)

/-- Strategy C (emergency): among all valid moves, maximize the accessible
area under the current body minus its tail, starting from
`bestEmergencyDir = null` and `maxEmergencySpace = -1`; the final
`bestEmergencyDir || validMoves[0].dir` falls back to the first valid move. -/
def tier3Choice (snake : List Point) : Option Direction :=
  match ((validMoves snake).foldl (fun (acc : Option Direction × Int) m =>
    if acc.2 < ((getAccessibleAreaSize m.2 snake.dropLast : Nat) : Int)
    then (some m.1, ((getAccessibleAreaSize m.2 snake.dropLast : Nat) : Int))
    else acc) (none, -1)).1 with
  | some d => some d
  | none => ((validMoves snake).head?).map (fun m => m.1)

/-- `getNextAutoMove` from the source (the simulate-then-filter variant the
specification describes): candidate generation, safety simulation, then the
three-tier selection. -/
def getNextAutoMove (snake : List Point) (food : Point) : Option Direction :=
  if (validMoves snake).isEmpty then none
  else
    match selectMinDist (movesWithFood snake food) with
    | some d => some d
    | none =>
      match tier2Choice snake food with
      | some d => some d
      | none => tier3Choice snake

/-! ## Specification-side notions: walks, paths, the board

These are the reference notions the claims are stated against: a walk is a
direction sequence applied from a start cell, valid when every cell *after*
the start is in bounds and unobstructed (§4.3 explicitly makes the start
always visitable).  `IsPathTo` is the claims' notion of an obstacle-avoiding
path, and the grid distance of the claims is the minimal length of such a
path. -/

/-- The cell a direction sequence leads to from `start`. -/
def walkEnd (start : Point) (dirs : List Direction) : Point :=
  dirs.foldl step start

/-- A walk is valid when every cell met after the start is in bounds and not
an obstacle. -/
def validWalkB (start : Point) (dirs : List Direction) (obs : List Point) :
    Bool :=
  match dirs with
  | [] => true
  | d :: ds =>
    inBounds (step start d) && !memPoint (step start d) obs &&
      validWalkB (step start d) ds obs

/-- All cells a walk visits, the start included. -/
def walkCells (start : Point) : List Direction → List Point
  | [] => [start]
  | d :: ds => start :: walkCells (step start d) ds

/-- `dirs` is a valid obstacle-avoiding path from `start` to `goal`. -/
def IsPathTo (start goal : Point) (obs : List Point)
    (dirs : List Direction) : Prop :=
  validWalkB start dirs obs = true ∧ walkEnd start dirs = goal

/-- The in-bounds cells of the 25×25 board, as a finite set (used to bound
the number of BFS iterations). -/
def boardCells : Finset Point :=
  (Finset.range 25 ×ˢ Finset.range 25).image
    (fun q => ⟨(q.1 : Int), (q.2 : Int)⟩)

/-- The breadth-first-search loop invariant for `getPathAux`: queue entries
carry valid walks of minimal length, the queue is sorted by level and spans at
most two levels, every cell within the front level's distance is visited,
dequeued cells are fully expanded, and the target can only be visited while
still queued. -/
structure BfsInv (start target : Point) (obs : List Point)
    (queue : List (Point × List Direction)) (visited : List Point) :
    Prop where
  walks : ∀ e ∈ queue,
    validWalkB start e.2 obs = true ∧ walkEnd start e.2 = e.1
  minimal : ∀ e ∈ queue, ∀ σ, validWalkB start σ obs = true →
    walkEnd start σ = e.1 → e.2.length ≤ σ.length
  sorted : (queue.map (fun e => e.2.length)).Sorted (· ≤ ·)
  bounded : ∀ e ∈ queue, ∀ e₀, queue.head? = some e₀ →
    e.2.length ≤ e₀.2.length + 1
  covered : ∀ c σ, validWalkB start σ obs = true → walkEnd start σ = c →
    (∀ e₀, queue.head? = some e₀ → σ.length ≤ e₀.2.length) →
    memPoint c visited = true
  expanded : ∀ v, memPoint v visited = true → (∀ e ∈ queue, e.1 ≠ v) →
    ∀ d, inBounds (step v d) = true → memPoint (step v d) obs = false →
      memPoint (step v d) visited = true
  qsub : ∀ e ∈ queue, memPoint e.1 visited = true
  qnodup : (queue.map Prod.fst).Nodup
  cells : ∀ e ∈ queue, (walkCells start e.2).Nodup ∧
    ∀ c ∈ walkCells start e.2, memPoint c visited = true
  startv : memPoint start visited = true
  targetq : memPoint target visited = true → ∃ e ∈ queue, e.1 = target

/-- `c` is reachable from `start`: some valid walk ends at `c`. -/
def Reachable (start : Point) (obs : List Point) (c : Point) : Prop :=
  ∃ σ, validWalkB start σ obs = true ∧ walkEnd start σ = c

/-- A cell usable by a walk: in bounds and not an obstacle. -/
def cellFree (obs : List Point) (p : Point) : Prop :=
  inBounds p = true ∧ memPoint p obs = false

/-- Adjacency of free cells in the 4-directional grid graph with the obstacle
cells removed. -/
def adjFree (obs : List Point) (a b : Point) : Prop :=
  cellFree obs a ∧ cellFree obs b ∧ ∃ d, step a d = b

/-- The flood-fill loop invariant. -/
structure FloodInv (start : Point) (obs : List Point)
    (queue visited : List Point) : Prop where
  reach : ∀ c, memPoint c visited = true → Reachable start obs c
  expanded : ∀ v, memPoint v visited = true → (v ∉ queue) →
    ∀ d, inBounds (step v d) = true → memPoint (step v d) obs = false →
      memPoint (step v d) visited = true
  qsub : ∀ e ∈ queue, memPoint e visited = true
  vnodup : visited.Nodup
  startv : memPoint start visited = true

/-! ## Concrete configurations used by the claims -/

/-- Scenario A of the specification (§8): body `[(2,2),(2,3),(2,4)]`. -/
def scenarioABody : List Point := [⟨2, 2⟩, ⟨2, 3⟩, ⟨2, 4⟩]

/-- Scenario A target `(2,0)`. -/
def scenarioATarget : Point := ⟨2, 0⟩

/-- A snake whose wall encloses two chambers joined only through the virtual
tail cell `(2,1)`; used to separate the two Tier-2 flood-fill obstacle-set
readings.  The chain runs head `(1,2)` → around the outer wall → `(2,1)`
(second-to-last, the virtual tail) → `(3,1)` (current tail). -/
def tier2Body : List Point :=
  [⟨1, 2⟩, ⟨0, 2⟩, ⟨0, 3⟩, ⟨0, 4⟩, ⟨1, 4⟩, ⟨2, 4⟩, ⟨3, 4⟩, ⟨4, 4⟩,
   ⟨4, 3⟩, ⟨4, 2⟩, ⟨4, 1⟩, ⟨4, 0⟩, ⟨3, 0⟩, ⟨2, 0⟩, ⟨2, 1⟩, ⟨3, 1⟩]

/-- A target outside the walled-off chambers of `tier2Body` (unreachable from
every candidate head). -/
def tier2Target : Point := ⟨20, 20⟩

/-- The Body invariant of the data model (§3): consecutive cells are
grid-adjacent (Manhattan distance 1). -/
def chainAdj : List Point → Bool
  | [] => true
  | [_] => true
  | a :: b :: t =>
    ((a.x - b.x).natAbs + (a.y - b.y).natAbs == 1) && chainAdj (b :: t)

/-- The Tier-2 flood-fill score as the specification words it (§4.6 step 4 /
claim C4): `reachableCount(virtualHead, obstaclesExcludingTail)`, i.e. the
flood fill runs over the virtual body **minus its last cell** — unlike the
source, which floods over the whole virtual body.  This definition follows
the specification's words and exists to be compared against the source's
`tier2Space`. -/
def specTier2Space (snake : List Point) (food : Point) (d : Direction) :
    Nat :=
  match (validMoves snake).find? (fun vm => vm.1 == d) with
  | some vm => getAccessibleAreaSize vm.2 (virtualObstacles snake food vm.2)
  | none => 0

/-- Tier-2 selection as the specification words it: among safe candidates,
the first one maximizing `specTier2Space` (ties broken by the enumeration
order of `safeMoves`). -/
def specTier2Choice (snake : List Point) (food : Point) : Option Direction :=
  match safeMoves snake food with
  | [] => none
  | sm :: rest =>
    some (((sm :: rest).foldl (fun (acc : Direction × Int) x =>
      if acc.2 < ((specTier2Space snake food x.1 : Nat) : Int)
      then (x.1, ((specTier2Space snake food x.1 : Nat) : Int))
      else acc) (sm.1, -1)).1)

/-! ## Basic bridge lemmas -/

theorem isSamePoint_iff {p q : Point} : isSamePoint p q = true ↔ p = q := by
  cases p; cases q
  simp [isSamePoint]

theorem isSamePoint_self (p : Point) : isSamePoint p p = true := by
  simp [isSamePoint_iff]

theorem memPoint_iff {p : Point} {l : List Point} :
    memPoint p l = true ↔ p ∈ l := by
  simp only [memPoint, List.any_eq_true]
  constructor
  · rintro ⟨q, hq, hsame⟩
    rwa [isSamePoint_iff.mp hsame] at hq
  · intro hp
    exact ⟨p, hp, isSamePoint_self p⟩

theorem memPoint_eq_false {p : Point} {l : List Point} :
    memPoint p l = false ↔ p ∉ l := by
  rw [← Bool.not_eq_true]
  exact not_congr memPoint_iff

theorem step_ne_self (p : Point) (d : Direction) : step p d ≠ p := by
  cases p; cases d <;> simp [step]

theorem step_injective_dir {p : Point} {d d' : Direction}
    (h : step p d = step p d') : d = d' := by
  cases p
  cases d <;> cases d' <;> simp_all [step] <;> omega

theorem mem_moveTable {p : Point} {d : Direction} {q : Point} :
    (d, q) ∈ moveTable p ↔ q = step p d := by
  cases d <;> simp [moveTable, step]

theorem mem_getNeighbors {p : Point} {obs : List Point} {d : Direction}
    {q : Point} :
    (d, q) ∈ getNeighbors p obs ↔
      q = step p d ∧ inBounds q = true ∧ memPoint q obs = false := by
  simp only [getNeighbors, List.mem_filter, mem_moveTable, Bool.and_eq_true,
    Bool.not_eq_true']

theorem inBounds_mem_boardCells {p : Point} (h : inBounds p = true) :
    p ∈ boardCells := by
  simp only [inBounds, Bool.not_eq_true', Bool.or_eq_false_iff,
    decide_eq_false_iff_not, not_lt, not_le] at h
  obtain ⟨⟨⟨hx0, hxW⟩, hy0⟩, hyH⟩ := h
  simp only [boardCells, Finset.mem_image, Finset.mem_product,
    Finset.mem_range]
  refine ⟨(p.x.toNat, p.y.toNat), ⟨?_, ?_⟩, ?_⟩
  · have : (p.x.toNat : Int) < 25 := by
      rwa [Int.toNat_of_nonneg hx0]
    exact_mod_cast this
  · have : (p.y.toNat : Int) < 25 := by
      rwa [Int.toNat_of_nonneg hy0]
    exact_mod_cast this
  · cases p
    simp only [Point.mk.injEq]
    constructor
    · exact Int.toNat_of_nonneg hx0
    · exact Int.toNat_of_nonneg hy0

theorem boardCells_card_le : boardCells.card ≤ 625 := by
  calc boardCells.card
      ≤ (Finset.range 25 ×ˢ Finset.range 25).card :=
        Finset.card_image_le
    _ = 625 := by simp

theorem walkEnd_nil (start : Point) : walkEnd start [] = start := rfl

theorem walkEnd_cons (start : Point) (d : Direction) (ds : List Direction) :
    walkEnd start (d :: ds) = walkEnd (step start d) ds := rfl

theorem walkEnd_append_single (start : Point) (l : List Direction)
    (d : Direction) :
    walkEnd start (l ++ [d]) = step (walkEnd start l) d := by
  simp [walkEnd, List.foldl_append]

theorem validWalkB_append_single (start : Point) (l : List Direction)
    (d : Direction) (obs : List Point) :
    validWalkB start (l ++ [d]) obs =
      (validWalkB start l obs &&
        (inBounds (step (walkEnd start l) d) &&
          !memPoint (step (walkEnd start l) d) obs)) := by
  induction l generalizing start with
  | nil => simp [validWalkB, walkEnd]
  | cons d' ds ih =>
    simp only [List.cons_append, validWalkB, List.append_eq, ih,
      walkEnd_cons, Bool.and_assoc]

theorem walkCells_append_single (start : Point) (l : List Direction)
    (d : Direction) :
    walkCells start (l ++ [d]) =
      walkCells start l ++ [step (walkEnd start l) d] := by
  induction l generalizing start with
  | nil => simp [walkCells, walkEnd]
  | cons d' ds ih =>
    simp [walkCells, ih, walkEnd_cons]

theorem walkEnd_mem_walkCells (start : Point) (l : List Direction) :
    walkEnd start l ∈ walkCells start l := by
  induction l generalizing start with
  | nil => simp [walkCells, walkEnd]
  | cons d ds ih =>
    simp only [walkCells, walkEnd_cons, List.mem_cons]
    exact Or.inr (ih (step start d))

/-! ## Properties of the BFS neighbor push -/

theorem memPoint_cons {c a : Point} {l : List Point} :
    memPoint c (a :: l) = (isSamePoint a c || memPoint c l) := rfl

theorem pushNeighbors_visited_mono {path : List Direction} {c : Point} :
    ∀ {ms : List (Direction × Point)} {q : List (Point × List Direction)}
      {v : List Point}, memPoint c v = true →
      memPoint c (pushNeighbors path ms q v).2 = true
  | [], _, _, h => h
  | m :: ms, q, v, h => by
    rw [pushNeighbors]
    by_cases hv : memPoint m.2 v
    · rw [if_pos hv]
      exact pushNeighbors_visited_mono h
    · rw [if_neg hv]
      refine pushNeighbors_visited_mono ?_
      rw [memPoint_cons, h, Bool.or_true]

theorem pushNeighbors_queue_mono {path : List Direction}
    {e : Point × List Direction} :
    ∀ {ms : List (Direction × Point)} {q : List (Point × List Direction)}
      {v : List Point}, e ∈ q → e ∈ (pushNeighbors path ms q v).1
  | [], _, _, h => h
  | m :: ms, q, v, h => by
    rw [pushNeighbors]
    by_cases hv : memPoint m.2 v
    · rw [if_pos hv]
      exact pushNeighbors_queue_mono h
    · rw [if_neg hv]
      exact pushNeighbors_queue_mono (by simp [h])

theorem pushNeighbors_visited_cases {path : List Direction} {c : Point} :
    ∀ {ms : List (Direction × Point)} {q : List (Point × List Direction)}
      {v : List Point}, memPoint c (pushNeighbors path ms q v).2 = true →
      memPoint c v = true ∨ ∃ e ∈ (pushNeighbors path ms q v).1, e.1 = c
  | [], _, _, h => Or.inl h
  | m :: ms, q, v, h => by
    rw [pushNeighbors] at h ⊢
    by_cases hv : memPoint m.2 v
    · rw [if_pos hv] at h ⊢
      exact pushNeighbors_visited_cases h
    · rw [if_neg hv] at h ⊢
      rcases pushNeighbors_visited_cases h with hc | hc
      · rw [memPoint_cons, Bool.or_eq_true] at hc
        rcases hc with hc | hc
        · refine Or.inr ⟨(m.2, path ++ [m.1]), ?_, isSamePoint_iff.mp hc⟩
          exact pushNeighbors_queue_mono (by simp)
        · exact Or.inl hc
      · exact Or.inr hc

theorem pushNeighbors_scanned_visited {path : List Direction} :
    ∀ {ms : List (Direction × Point)} {q : List (Point × List Direction)}
      {v : List Point}, ∀ m ∈ ms,
      memPoint m.2 (pushNeighbors path ms q v).2 = true
  | m' :: ms, q, v, m, hm => by
    rw [pushNeighbors]
    rcases List.mem_cons.mp hm with rfl | hm
    · by_cases hv : memPoint m.2 v
      · rw [if_pos hv]
        exact pushNeighbors_visited_mono hv
      · rw [if_neg hv]
        refine pushNeighbors_visited_mono ?_
        rw [memPoint_cons, isSamePoint_self, Bool.true_or]
    · by_cases hv : memPoint m'.2 v
      · rw [if_pos hv]
        exact pushNeighbors_scanned_visited m hm
      · rw [if_neg hv]
        exact pushNeighbors_scanned_visited m hm

theorem pushNeighbors_decomp {w : List Direction} :
    ∀ {s : List (Direction × Point)} {q : List (Point × List Direction)}
      {v : List Point},
      ∃ new, (pushNeighbors w s q v).1 = q ++ new ∧
        ∀ e ∈ new, ∃ m, m ∈ s ∧ e = (m.2, w ++ [m.1]) ∧
          memPoint m.2 v = false
  | [], q, v => ⟨[], by simp [pushNeighbors]⟩
  | m :: ms, q, v => by
    rw [pushNeighbors]
    by_cases hv : memPoint m.2 v
    · rw [if_pos hv]
      obtain ⟨new, h1, h3⟩ :=
        pushNeighbors_decomp (s := ms) (q := q) (v := v)
      exact ⟨new, h1, fun e he =>
        let ⟨m', hm', he', hf⟩ := h3 e he
        ⟨m', List.mem_cons_of_mem _ hm', he', hf⟩⟩
    · rw [if_neg hv]
      obtain ⟨new, h1, h3⟩ := pushNeighbors_decomp (s := ms)
        (q := q ++ [(m.2, w ++ [m.1])]) (v := m.2 :: v)
      refine ⟨(m.2, w ++ [m.1]) :: new, by simpa using h1, ?_⟩
      intro e he
      rcases List.mem_cons.mp he with rfl | he
      · exact ⟨m, List.mem_cons_self _ _, rfl, by simpa using hv⟩
      · obtain ⟨m', hm', he', hf⟩ := h3 e he
        refine ⟨m', List.mem_cons_of_mem _ hm', he', ?_⟩
        rw [memPoint_cons, Bool.or_eq_false_iff] at hf
        exact hf.2

theorem sorted_of_all_eq {c : Nat} :
    ∀ {l : List Nat}, (∀ x ∈ l, x = c) → l.Sorted (· ≤ ·)
  | [], _ => List.sorted_nil
  | x :: xs, h => by
    rw [List.sorted_cons]
    refine ⟨fun b hb => ?_, sorted_of_all_eq (fun y hy => h y (by simp [hy]))⟩
    rw [h x (by simp), h b (by simp [hb])]

theorem pushNeighbors_nodup {path : List Direction} :
    ∀ {ms : List (Direction × Point)} {q : List (Point × List Direction)}
      {v : List Point}, (q.map Prod.fst).Nodup →
      (∀ e ∈ q, memPoint e.1 v = true) →
      ((pushNeighbors path ms q v).1.map Prod.fst).Nodup
  | [], _, _, hq, _ => hq
  | m :: ms, q, v, hq, hsub => by
    rw [pushNeighbors]
    by_cases hv : memPoint m.2 v
    · rw [if_pos hv]
      exact pushNeighbors_nodup hq hsub
    · rw [if_neg hv]
      refine pushNeighbors_nodup ?_ ?_
      · rw [List.map_append, List.nodup_append]
        refine ⟨hq, List.nodup_singleton _, ?_⟩
        intro a ha hb
        simp only [List.map_cons, List.map_nil, List.mem_singleton] at hb
        subst hb
        obtain ⟨e, he, he1⟩ := List.mem_map.mp ha
        exact hv (he1 ▸ hsub e he)
      · intro e he
        rcases List.mem_append.mp he with he | he
        · rw [memPoint_cons, hsub e he, Bool.or_true]
        · simp only [List.mem_singleton] at he
          subst he
          rw [memPoint_cons, isSamePoint_self, Bool.true_or]

/-- If a visited set is closed under free steps, it absorbs every valid walk
starting inside it. -/
theorem closure_walk {obs V : List Point}
    (hcl : ∀ v, memPoint v V = true → ∀ d, inBounds (step v d) = true →
      memPoint (step v d) obs = false → memPoint (step v d) V = true) :
    ∀ (σ : List Direction) (c₀ : Point), memPoint c₀ V = true →
      validWalkB c₀ σ obs = true → memPoint (walkEnd c₀ σ) V = true
  | [], _, h, _ => h
  | d :: σ, c₀, h, hv => by
    rw [validWalkB] at hv
    simp only [Bool.and_eq_true, Bool.not_eq_true'] at hv
    rw [walkEnd_cons]
    exact closure_walk hcl σ (step c₀ d)
      (hcl c₀ h d hv.1.1 hv.1.2) hv.2

/-- The invariant holds for the initial queue and visited set of `getPath`. -/
theorem bfsInv_init (start target : Point) (obs : List Point) :
    BfsInv start target obs [(start, [])] [start] := by
  have hmem : memPoint start [start] = true := by
    rw [memPoint_iff]; simp
  refine ⟨?_, ?_, ?_, ?_, ?_, ?_, ?_, ?_, ?_, hmem, ?_⟩
  · rintro e he
    simp only [List.mem_singleton] at he
    subst he
    exact ⟨rfl, rfl⟩
  · rintro e he σ _ _
    simp only [List.mem_singleton] at he
    subst he
    exact Nat.zero_le _
  · simp
  · rintro e he e₀ he₀
    simp only [List.mem_singleton] at he
    subst he
    simp only [List.head?_cons, Option.some.injEq] at he₀
    subst he₀
    simp
  · intro c σ hv he hc
    have hσ : σ.length ≤ 0 := hc (start, []) rfl
    have : σ = [] := List.eq_nil_of_length_eq_zero (Nat.le_zero.mp hσ)
    subst this
    rw [← he]
    exact hmem
  · intro v hv hq d _ _
    exfalso
    rw [memPoint_iff] at hv
    simp only [List.mem_singleton] at hv
    exact hq (start, []) (by simp) hv.symm
  · rintro e he
    simp only [List.mem_singleton] at he
    subst he
    exact hmem
  · simp
  · rintro e he
    simp only [List.mem_singleton] at he
    subst he
    exact ⟨List.nodup_singleton _, by
      intro c hc
      simp only [walkCells, List.mem_singleton] at hc
      subst hc
      exact hmem⟩
  · intro ht
    rw [memPoint_iff] at ht
    simp only [List.mem_singleton] at ht
    exact ⟨(start, []), by simp, ht.symm⟩

theorem sorted_head_min {l : List (Point × List Direction)}
    (hs : (l.map (fun e => e.2.length)).Sorted (· ≤ ·)) {e₀ : Point × List Direction}
    (h₀ : l.head? = some e₀) {e : Point × List Direction} (he : e ∈ l) :
    e₀.2.length ≤ e.2.length := by
  cases l with
  | nil => exact absurd h₀ (by simp)
  | cons a t =>
    simp only [List.head?_cons, Option.some.injEq] at h₀
    subst h₀
    rcases List.mem_cons.mp he with rfl | he
    · exact Nat.le_refl _
    · rw [List.map_cons, List.sorted_cons] at hs
      exact hs.1 _ (List.mem_map_of_mem _ he)

/-- One BFS loop iteration preserves the invariant (the dequeued cell not
being the target). -/
theorem bfsInv_preserved {start target p : Point} {obs : List Point}
    {π : List Direction} {rest : List (Point × List Direction)}
    {visited : List Point}
    (inv : BfsInv start target obs ((p, π) :: rest) visited)
    (hpt : p ≠ target) :
    BfsInv start target obs
      (pushNeighbors π (getNeighbors p obs) rest visited).1
      (pushNeighbors π (getNeighbors p obs) rest visited).2 := by
  obtain ⟨new, hq, hnew⟩ := pushNeighbors_decomp (w := π)
    (s := getNeighbors p obs) (q := rest) (v := visited)
  have hwp := inv.walks (p, π) (List.mem_cons_self _ _)
  have hvalid_new : ∀ {d : Direction} {c : Point},
      (d, c) ∈ getNeighbors p obs →
      validWalkB start (π ++ [d]) obs = true ∧
        walkEnd start (π ++ [d]) = c := by
    intro d c hm
    obtain ⟨hc, hib, hob⟩ := mem_getNeighbors.mp hm
    constructor
    · rw [validWalkB_append_single, hwp.1, hwp.2, ← hc, hib, hob]
      rfl
    · rw [walkEnd_append_single, hwp.2, hc]
  have hrest_mem : ∀ e ∈ rest,
      e ∈ (pushNeighbors π (getNeighbors p obs) rest visited).1 := by
    intro e he
    rw [hq]
    exact List.mem_append_left _ he
  have hbnd_old : ∀ e ∈ (p, π) :: rest, e.2.length ≤ π.length + 1 :=
    fun e he => inv.bounded e he (p, π) rfl
  have hsorted_old : ∀ b ∈ rest.map (fun e => e.2.length), π.length ≤ b := by
    have := inv.sorted
    rw [List.map_cons, List.sorted_cons] at this
    exact this.1
  -- 1. walks
  have hwalks : ∀ e ∈ (pushNeighbors π (getNeighbors p obs) rest visited).1,
      validWalkB start e.2 obs = true ∧ walkEnd start e.2 = e.1 := by
    intro e he
    rw [hq] at he
    rcases List.mem_append.mp he with he | he
    · exact inv.walks e (List.mem_cons_of_mem _ he)
    · obtain ⟨⟨d, c⟩, hm, rfl, _⟩ := hnew e he
      exact hvalid_new hm
  -- 2. minimal
  have hminimal : ∀ e ∈ (pushNeighbors π (getNeighbors p obs) rest visited).1,
      ∀ σ, validWalkB start σ obs = true → walkEnd start σ = e.1 →
        e.2.length ≤ σ.length := by
    intro e he σ hσv hσe
    rw [hq] at he
    rcases List.mem_append.mp he with he | he
    · exact inv.minimal e (List.mem_cons_of_mem _ he) σ hσv hσe
    · obtain ⟨⟨d, c⟩, hm, rfl, hf⟩ := hnew e he
      simp only [List.length_append, List.length_cons, List.length_nil]
      by_contra hlt
      push_neg at hlt
      have hσπ : σ.length ≤ π.length := by omega
      have : memPoint c visited = true := by
        refine inv.covered c σ hσv hσe ?_
        rintro e₀ he₀
        simp only [List.head?_cons, Option.some.injEq] at he₀
        subst he₀
        exact hσπ
      rw [this] at hf
      exact absurd hf (by simp)
  -- 3. sorted
  have hsorted : (((pushNeighbors π (getNeighbors p obs) rest visited).1).map
      (fun e => e.2.length)).Sorted (· ≤ ·) := by
    rw [hq, List.map_append]
    refine List.pairwise_append.mpr ⟨?_, ?_, ?_⟩
    · have := inv.sorted
      rw [List.map_cons, List.sorted_cons] at this
      exact this.2
    · refine sorted_of_all_eq (c := π.length + 1) ?_
      intro x hx
      obtain ⟨e, he, rfl⟩ := List.mem_map.mp hx
      obtain ⟨⟨d, c⟩, _, rfl, _⟩ := hnew e he
      simp
    · intro a ha b hb
      obtain ⟨e, he, rfl⟩ := List.mem_map.mp ha
      obtain ⟨e', he', rfl⟩ := List.mem_map.mp hb
      obtain ⟨⟨d, c⟩, _, rfl, _⟩ := hnew e' he'
      have : e.2.length ≤ π.length + 1 :=
        hbnd_old e (List.mem_cons_of_mem _ he)
      simpa using this
  -- 4. bounded
  have hbounded : ∀ e ∈ (pushNeighbors π (getNeighbors p obs) rest visited).1,
      ∀ e₀, (pushNeighbors π (getNeighbors p obs) rest visited).1.head? =
        some e₀ → e.2.length ≤ e₀.2.length + 1 := by
    intro e he e₀ he₀
    have hlen : e.2.length ≤ π.length + 1 := by
      rw [hq] at he
      rcases List.mem_append.mp he with he | he
      · exact hbnd_old e (List.mem_cons_of_mem _ he)
      · obtain ⟨⟨d, c⟩, _, rfl, _⟩ := hnew e he
        simp
    have hfront : π.length ≤ e₀.2.length := by
      rw [hq] at he₀
      cases rest with
      | nil =>
        simp only [List.nil_append] at he₀
        cases new with
        | nil => exact absurd he₀ (by simp)
        | cons n t =>
          simp only [List.head?_cons, Option.some.injEq] at he₀
          subst he₀
          obtain ⟨⟨d, c⟩, _, rfl, _⟩ := hnew n (List.mem_cons_self _ _)
          simp
      | cons r₀ rest' =>
        simp only [List.cons_append, List.head?_cons,
          Option.some.injEq] at he₀
        subst he₀
        exact hsorted_old _ (List.mem_map_of_mem _ (List.mem_cons_self _ _))
    omega
  -- 5. expanded
  have hexpanded : ∀ v,
      memPoint v (pushNeighbors π (getNeighbors p obs) rest visited).2 =
        true →
      (∀ e ∈ (pushNeighbors π (getNeighbors p obs) rest visited).1,
        e.1 ≠ v) →
      ∀ d, inBounds (step v d) = true → memPoint (step v d) obs = false →
        memPoint (step v d)
          (pushNeighbors π (getNeighbors p obs) rest visited).2 = true := by
    intro v hv hvq d hib hob
    rcases pushNeighbors_visited_cases hv with hvis | ⟨e, he, he1⟩
    · by_cases hvp : v = p
      · subst hvp
        have hm : (d, step v d) ∈ getNeighbors v obs :=
          mem_getNeighbors.mpr ⟨rfl, hib, hob⟩
        exact pushNeighbors_scanned_visited _ hm
      · by_cases hvr : ∃ e ∈ rest, e.1 = v
        · obtain ⟨e, he, he1⟩ := hvr
          exact absurd he1 (hvq e (hrest_mem e he))
        · refine pushNeighbors_visited_mono ?_
          refine inv.expanded v hvis ?_ d hib hob
          intro e he
          rcases List.mem_cons.mp he with rfl | he
          · exact fun h => hvp h.symm
          · exact fun h => hvr ⟨e, he, h⟩
    · exact absurd he1 (hvq e he)
  -- 6. qsub
  have hqsub : ∀ e ∈ (pushNeighbors π (getNeighbors p obs) rest visited).1,
      memPoint e.1 (pushNeighbors π (getNeighbors p obs) rest visited).2 =
        true := by
    intro e he
    rw [hq] at he
    rcases List.mem_append.mp he with he | he
    · exact pushNeighbors_visited_mono
        (inv.qsub e (List.mem_cons_of_mem _ he))
    · obtain ⟨⟨d, c⟩, hm, rfl, _⟩ := hnew e he
      exact pushNeighbors_scanned_visited _ hm
  -- 7. qnodup
  have hqnodup :
      ((pushNeighbors π (getNeighbors p obs) rest visited).1.map
        Prod.fst).Nodup := by
    refine pushNeighbors_nodup ?_ ?_
    · have := inv.qnodup
      rw [List.map_cons, List.nodup_cons] at this
      exact this.2
    · exact fun e he => inv.qsub e (List.mem_cons_of_mem _ he)
  -- 8. cells
  have hcells : ∀ e ∈ (pushNeighbors π (getNeighbors p obs) rest visited).1,
      (walkCells start e.2).Nodup ∧ ∀ c ∈ walkCells start e.2,
        memPoint c (pushNeighbors π (getNeighbors p obs) rest visited).2 =
          true := by
    intro e he
    rw [hq] at he
    rcases List.mem_append.mp he with he | he
    · obtain ⟨h1, h2⟩ := inv.cells e (List.mem_cons_of_mem _ he)
      exact ⟨h1, fun c hc => pushNeighbors_visited_mono (h2 c hc)⟩
    · obtain ⟨⟨d, c⟩, hm, rfl, hf⟩ := hnew e he
      obtain ⟨hc, hib, hob⟩ := mem_getNeighbors.mp hm
      obtain ⟨h1, h2⟩ := inv.cells (p, π) (List.mem_cons_self _ _)
      have hcw : walkCells start (π ++ [d]) = walkCells start π ++ [c] := by
        rw [walkCells_append_single, hwp.2, ← hc]
      constructor
      · rw [hcw, List.nodup_append]
        refine ⟨h1, List.nodup_singleton _, ?_⟩
        intro a ha hb
        simp only [List.mem_singleton] at hb
        subst hb
        rw [h2 a ha] at hf
        exact absurd hf (by simp)
      · intro c' hc'
        rw [hcw] at hc'
        rcases List.mem_append.mp hc' with hc' | hc'
        · exact pushNeighbors_visited_mono (h2 c' hc')
        · simp only [List.mem_singleton] at hc'
          subst hc'
          exact pushNeighbors_scanned_visited _ hm
  -- 9. startv
  have hstartv :
      memPoint start (pushNeighbors π (getNeighbors p obs) rest visited).2 =
        true := pushNeighbors_visited_mono inv.startv
  -- 10. targetq
  have htargetq :
      memPoint target (pushNeighbors π (getNeighbors p obs) rest visited).2 =
        true →
      ∃ e ∈ (pushNeighbors π (getNeighbors p obs) rest visited).1,
        e.1 = target := by
    intro ht
    rcases pushNeighbors_visited_cases ht with ht | ht
    · obtain ⟨e, he, he1⟩ := inv.targetq ht
      rcases List.mem_cons.mp he with rfl | he
      · exact absurd he1 hpt
      · exact ⟨e, hrest_mem e he, he1⟩
    · exact ht
  -- 11. covered
  have hcovered : ∀ c σ, validWalkB start σ obs = true →
      walkEnd start σ = c →
      (∀ e₀, (pushNeighbors π (getNeighbors p obs) rest visited).1.head? =
        some e₀ → σ.length ≤ e₀.2.length) →
      memPoint c (pushNeighbors π (getNeighbors p obs) rest visited).2 =
        true := by
    intro c σ hσv hσe hcond
    cases hl : (pushNeighbors π (getNeighbors p obs) rest visited).1 with
    | nil =>
      have hcl : ∀ v,
          memPoint v (pushNeighbors π (getNeighbors p obs) rest
            visited).2 = true →
          ∀ d, inBounds (step v d) = true →
            memPoint (step v d) obs = false →
            memPoint (step v d)
              (pushNeighbors π (getNeighbors p obs) rest visited).2 =
              true := by
        intro v hv d hib hob
        exact hexpanded v hv (by rw [hl]; simp) d hib hob
      rw [← hσe]
      exact closure_walk hcl σ start hstartv hσv
    | cons e₀ tail =>
      have hσlen : σ.length ≤ e₀.2.length := hcond e₀ (by rw [hl]; rfl)
      by_cases hσπ : σ.length ≤ π.length
      · refine pushNeighbors_visited_mono ?_
        refine inv.covered c σ hσv hσe ?_
        rintro e₀' he₀'
        simp only [List.head?_cons, Option.some.injEq] at he₀'
        subst he₀'
        exact hσπ
      · push_neg at hσπ
        have he₀mem : e₀ ∈ (pushNeighbors π (getNeighbors p obs) rest
            visited).1 := by rw [hl]; exact List.mem_cons_self _ _
        have he₀bnd : e₀.2.length ≤ π.length + 1 := by
          rw [hq] at he₀mem
          rcases List.mem_append.mp he₀mem with he | he
          · exact hbnd_old e₀ (List.mem_cons_of_mem _ he)
          · obtain ⟨⟨d, c'⟩, _, rfl, _⟩ := hnew e₀ he
            simp
        have hσexact : σ.length = π.length + 1 := by omega
        rcases List.eq_nil_or_concat σ with rfl | ⟨σ₀, d0, rfl⟩
        · simp at hσexact
        · rw [List.concat_eq_append] at hσv hσe hσexact hσlen
          have hσ₀len : σ₀.length = π.length := by
            rw [List.length_append] at hσexact
            simpa using hσexact
          rw [validWalkB_append_single] at hσv
          simp only [Bool.and_eq_true, Bool.not_eq_true'] at hσv
          obtain ⟨hσ₀v, hib, hob⟩ := hσv
          rw [walkEnd_append_single] at hσe
          set b := walkEnd start σ₀ with hbdef
          have hb : memPoint b visited = true := by
            refine inv.covered b σ₀ hσ₀v rfl ?_
            rintro e₀' he₀'
            simp only [List.head?_cons, Option.some.injEq] at he₀'
            subst he₀'
            exact hσ₀len.le
          by_cases hbp : b = p
          · rw [hbp] at hib hob hσe
            have hm : (d0, step p d0) ∈ getNeighbors p obs :=
              mem_getNeighbors.mpr ⟨rfl, hib, hob⟩
            rw [← hσe]
            exact pushNeighbors_scanned_visited _ hm
          · by_cases hbr : ∃ e ∈ rest, e.1 = b
            · exfalso
              obtain ⟨e, he, he1⟩ := hbr
              have h1 : e.2.length ≤ σ₀.length :=
                inv.minimal e (List.mem_cons_of_mem _ he) σ₀ hσ₀v he1.symm
              have h2 : e₀.2.length ≤ e.2.length :=
                sorted_head_min hsorted (by rw [hl]; rfl) (hrest_mem e he)
              simp only [List.length_append, List.length_cons,
                List.length_nil] at hσlen
              omega
            · refine pushNeighbors_visited_mono ?_
              have := inv.expanded b hb ?_ d0 hib hob
              · rw [← hσe]
                exact this
              · intro e he
                rcases List.mem_cons.mp he with rfl | he
                · exact fun h => hbp h.symm
                · exact fun h => hbr ⟨e, he, h⟩
  exact ⟨hwalks, hminimal, hsorted, hbounded, hcovered, hexpanded, hqsub,
    hqnodup, hcells, hstartv, htargetq⟩

/-! ## Extraction: what a BFS result means under the invariant -/

/-- A successful BFS run returns a valid, shortest, non-self-crossing walk to
the target. -/
theorem getPathAux_some (start target : Point) (obs : List Point) :
    ∀ (fuel : Nat) (queue : List (Point × List Direction))
      (visited : List Point), BfsInv start target obs queue visited →
      ∀ π, getPathAux target obs fuel queue visited = some (some π) →
      (validWalkB start π obs = true ∧ walkEnd start π = target) ∧
      (∀ σ, validWalkB start σ obs = true → walkEnd start σ = target →
        π.length ≤ σ.length) ∧
      (walkCells start π).Nodup := by
  intro fuel
  induction fuel with
  | zero =>
    intro queue visited _ π h
    simp [getPathAux] at h
  | succ fuel ih =>
    intro queue visited inv π h
    match queue with
    | [] => simp [getPathAux] at h
    | (p, path) :: rest =>
      simp only [getPathAux] at h
      by_cases hpt : isSamePoint p target
      · rw [if_pos hpt] at h
        simp only [Option.some.injEq] at h
        subst h
        have hp : p = target := isSamePoint_iff.mp hpt
        obtain ⟨hv, he⟩ := inv.walks (p, path) (List.mem_cons_self _ _)
        refine ⟨⟨hv, by rw [he, hp]⟩, ?_,
          (inv.cells (p, path) (List.mem_cons_self _ _)).1⟩
        intro σ hσv hσe
        exact inv.minimal (p, path) (List.mem_cons_self _ _) σ hσv
          (by rw [hσe, hp])
      · rw [if_neg hpt] at h
        have hpt' : p ≠ target := fun hh => hpt (isSamePoint_iff.mpr hh)
        exact ih _ _ (bfsInv_preserved inv hpt') π h

/-- An exhausted BFS run (`return null`) means no valid walk from any visited
cell reaches the target. -/
theorem getPathAux_none (start target : Point) (obs : List Point) :
    ∀ (fuel : Nat) (queue : List (Point × List Direction))
      (visited : List Point), BfsInv start target obs queue visited →
      getPathAux target obs fuel queue visited = some none →
      ∀ c, memPoint c visited = true → ∀ σ,
        validWalkB c σ obs = true → walkEnd c σ ≠ target := by
  intro fuel
  induction fuel with
  | zero =>
    intro queue visited _ h
    simp [getPathAux] at h
  | succ fuel ih =>
    intro queue visited inv h
    match queue with
    | [] =>
      intro c hc σ hσv hσe
      have hend : memPoint (walkEnd c σ) visited = true := by
        refine closure_walk ?_ σ c hc hσv
        intro v hv d hib hob
        exact inv.expanded v hv (by simp) d hib hob
      rw [hσe] at hend
      obtain ⟨e, he, _⟩ := inv.targetq hend
      exact absurd he (List.not_mem_nil e)
    | (p, path) :: rest =>
      simp only [getPathAux] at h
      by_cases hpt : isSamePoint p target
      · rw [if_pos hpt] at h
        exact absurd h (by simp)
      · rw [if_neg hpt] at h
        have hpt' : p ≠ target := fun hh => hpt (isSamePoint_iff.mpr hh)
        intro c hc σ hσv hσe
        exact ih _ _ (bfsInv_preserved inv hpt') h c
          (pushNeighbors_visited_mono hc) σ hσv hσe

/-! ## Fuel sufficiency -/

theorem getNeighbors_inBounds {p : Point} {obs : List Point} :
    ∀ m ∈ getNeighbors p obs, inBounds m.2 = true := by
  intro m hm
  have := (List.mem_filter.mp hm).2
  simp only [Bool.and_eq_true] at this
  exact this.1

theorem pushNeighbors_mu {w : List Direction} :
    ∀ {s : List (Direction × Point)} {q : List (Point × List Direction)}
      {v : List Point}, (∀ m ∈ s, inBounds m.2 = true) →
      (boardCells \ (pushNeighbors w s q v).2.toFinset).card +
        (pushNeighbors w s q v).1.length ≤
      (boardCells \ v.toFinset).card + q.length
  | [], _, _, _ => Nat.le_refl _
  | m :: ms, q, v, hb => by
    rw [pushNeighbors]
    by_cases hv : memPoint m.2 v
    · rw [if_pos hv]
      exact pushNeighbors_mu (fun m' hm' => hb m' (List.mem_cons_of_mem _ hm'))
    · rw [if_neg hv]
      have hmem : m.2 ∈ boardCells \ v.toFinset := by
        rw [Finset.mem_sdiff]
        refine ⟨inBounds_mem_boardCells (hb m (List.mem_cons_self _ _)), ?_⟩
        rw [List.mem_toFinset]
        intro hc
        exact hv (memPoint_iff.mpr hc)
      have hcard : (boardCells \ (m.2 :: v).toFinset).card =
          (boardCells \ v.toFinset).card - 1 := by
        rw [List.toFinset_cons, Finset.sdiff_insert,
          Finset.card_erase_of_mem hmem]
      have hpos : 0 < (boardCells \ v.toFinset).card :=
        Finset.card_pos.mpr ⟨m.2, hmem⟩
      calc (boardCells \ (pushNeighbors w ms
              (q ++ [(m.2, w ++ [m.1])]) (m.2 :: v)).2.toFinset).card +
            (pushNeighbors w ms (q ++ [(m.2, w ++ [m.1])])
              (m.2 :: v)).1.length
          ≤ (boardCells \ (m.2 :: v).toFinset).card +
            (q ++ [(m.2, w ++ [m.1])]).length :=
            pushNeighbors_mu
              (fun m' hm' => hb m' (List.mem_cons_of_mem _ hm'))
        _ ≤ (boardCells \ v.toFinset).card + q.length := by
            rw [hcard, List.length_append]
            simp only [List.length_cons, List.length_nil]
            omega

theorem getPathAux_fuel (target : Point) (obs : List Point) :
    ∀ (fuel : Nat) (queue : List (Point × List Direction))
      (visited : List Point),
      (boardCells \ visited.toFinset).card + queue.length < fuel →
      getPathAux target obs fuel queue visited ≠ none := by
  intro fuel
  induction fuel with
  | zero => intro queue visited h; omega
  | succ fuel ih =>
    intro queue visited h
    match queue with
    | [] => simp [getPathAux]
    | (p, path) :: rest =>
      simp only [getPathAux]
      by_cases hpt : isSamePoint p target
      · rw [if_pos hpt]; simp
      · rw [if_neg hpt]
        refine ih _ _ ?_
        have hmu := pushNeighbors_mu (w := path)
          (s := getNeighbors p obs) (q := rest) (v := visited)
          getNeighbors_inBounds
        simp only [List.length_cons] at h
        omega

theorem getPath_aux_result (start target : Point) (obs : List Point) :
    getPathAux target obs 1000 [(start, [])] [start] =
      some (getPath start target obs) := by
  have hne : getPathAux target obs 1000 [(start, [])] [start] ≠ none := by
    refine getPathAux_fuel target obs 1000 _ _ ?_
    have h1 : (boardCells \ [start].toFinset).card ≤ 625 :=
      le_trans (Finset.card_le_card (Finset.sdiff_subset)) boardCells_card_le
    simp only [List.length_cons, List.length_nil]
    omega
  rw [getPath]
  cases haux : getPathAux target obs 1000 [(start, [])] [start] with
  | none => exact absurd haux hne
  | some r => rfl

/-! ## The `getPath` contract -/

/-- Soundness, minimality and non-self-crossing of a returned path. -/
theorem getPath_some_spec {start target : Point} {obs : List Point}
    {π : List Direction} (h : getPath start target obs = some π) :
    IsPathTo start target obs π ∧
    (∀ σ, IsPathTo start target obs σ → π.length ≤ σ.length) ∧
    (walkCells start π).Nodup := by
  have haux : getPathAux target obs 1000 [(start, [])] [start] =
      some (some π) := by
    rw [getPath_aux_result, h]
  obtain ⟨⟨h1, h2⟩, h3, h4⟩ := getPathAux_some start target obs 1000 _ _
    (bfsInv_init start target obs) π haux
  exact ⟨⟨h1, h2⟩, fun σ hσ => h3 σ hσ.1 hσ.2, h4⟩

/-- `getPath` returns `none` exactly when no valid path exists. -/
theorem getPath_none_iff {start target : Point} {obs : List Point} :
    getPath start target obs = none ↔
      ∀ σ, ¬ IsPathTo start target obs σ := by
  constructor
  · intro h σ hσ
    have haux : getPathAux target obs 1000 [(start, [])] [start] =
        some none := by
      rw [getPath_aux_result, h]
    have hstart : memPoint start [start] = true := by
      rw [memPoint_iff]; simp
    exact getPathAux_none start target obs 1000 _ _
      (bfsInv_init start target obs) haux start hstart σ hσ.1 hσ.2
  · intro hno
    cases hg : getPath start target obs with
    | none => rfl
    | some π =>
      exact absurd (getPath_some_spec hg).1 (hno π)

/-- `getPath` on coincident start and goal returns the empty path. -/
theorem getPath_self (start : Point) (obs : List Point) :
    getPath start start obs = some [] := by
  have : getPathAux start obs 1000 [(start, [])] [start] =
      some (some []) := by
    show getPathAux start obs (999 + 1) [(start, [])] [start] =
      some (some [])
    simp [getPathAux, isSamePoint_self]
  rw [getPath, this]
  rfl

/-! ## Flood-fill correctness (`getAccessibleAreaSize`) -/

/-- The four raw neighbor cells scanned by the flood-fill loop are exactly the
single steps. -/
theorem mem_floodMoves {current n : Point} :
    n ∈ [(⟨current.x, current.y - 1⟩ : Point), ⟨current.x, current.y + 1⟩,
      ⟨current.x - 1, current.y⟩, ⟨current.x + 1, current.y⟩] ↔
    ∃ d, step current d = n := by
  constructor
  · intro hn
    simp only [List.mem_cons, List.not_mem_nil, or_false] at hn
    rcases hn with rfl | rfl | rfl | rfl
    · exact ⟨Direction.UP, rfl⟩
    · exact ⟨Direction.DOWN, rfl⟩
    · exact ⟨Direction.LEFT, rfl⟩
    · exact ⟨Direction.RIGHT, rfl⟩
  · rintro ⟨d, rfl⟩
    cases d <;> simp [step]

theorem floodPush_visited_mono {obs : List Point} {c : Point} :
    ∀ {ms q v : List Point}, memPoint c v = true →
      memPoint c (floodPush obs ms q v).2 = true
  | [], _, _, h => h
  | n :: ms, q, v, h => by
    rw [floodPush]
    by_cases hc : inBounds n && (!memPoint n v && !memPoint n obs)
    · rw [if_pos hc]
      refine floodPush_visited_mono ?_
      rw [memPoint_cons, h, Bool.or_true]
    · rw [if_neg hc]
      exact floodPush_visited_mono h

theorem floodPush_queue_mono {obs : List Point} {e : Point} :
    ∀ {ms q v : List Point}, e ∈ q → e ∈ (floodPush obs ms q v).1
  | [], _, _, h => h
  | n :: ms, q, v, h => by
    rw [floodPush]
    by_cases hc : inBounds n && (!memPoint n v && !memPoint n obs)
    · rw [if_pos hc]
      exact floodPush_queue_mono (by simp [h])
    · rw [if_neg hc]
      exact floodPush_queue_mono h

theorem floodPush_visited_cases {obs : List Point} {c : Point} :
    ∀ {ms q v : List Point}, memPoint c (floodPush obs ms q v).2 = true →
      memPoint c v = true ∨ c ∈ (floodPush obs ms q v).1
  | [], _, _, h => Or.inl h
  | n :: ms, q, v, h => by
    rw [floodPush] at h ⊢
    by_cases hc : inBounds n && (!memPoint n v && !memPoint n obs)
    · rw [if_pos hc] at h ⊢
      rcases floodPush_visited_cases h with hv | hv
      · rw [memPoint_cons, Bool.or_eq_true] at hv
        rcases hv with hv | hv
        · refine Or.inr ?_
          rw [← isSamePoint_iff.mp hv]
          exact floodPush_queue_mono (by simp)
        · exact Or.inl hv
      · exact Or.inr hv
    · rw [if_neg hc] at h ⊢
      exact floodPush_visited_cases h

theorem floodPush_scanned {obs : List Point} :
    ∀ {ms q v : List Point}, ∀ n ∈ ms, inBounds n = true →
      memPoint n obs = false → memPoint n (floodPush obs ms q v).2 = true
  | n' :: ms, q, v, n, hn, hib, hob => by
    rw [floodPush]
    rcases List.mem_cons.mp hn with rfl | hn
    · by_cases hv : memPoint n v
      · have hc : ¬ ((inBounds n && (!memPoint n v && !memPoint n obs)) =
            true) := by
          rw [hv]
          simp
        rw [if_neg hc]
        exact floodPush_visited_mono hv
      · have hc : (inBounds n && (!memPoint n v && !memPoint n obs)) =
            true := by
          rw [hib, hob]
          simp only [Bool.not_eq_true] at hv
          rw [hv]
          rfl
        rw [if_pos hc]
        refine floodPush_visited_mono ?_
        rw [memPoint_cons, isSamePoint_self, Bool.true_or]
    · by_cases hc : inBounds n' && (!memPoint n' v && !memPoint n' obs)
      · rw [if_pos hc]
        exact floodPush_scanned n hn hib hob
      · rw [if_neg hc]
        exact floodPush_scanned n hn hib hob

theorem floodPush_decomp {o : List Point} :
    ∀ {s q v : List Point},
      ∃ new, (floodPush o s q v).1 = q ++ new ∧
        (floodPush o s q v).2.length = v.length + new.length ∧
        ∀ n ∈ new, n ∈ s ∧ inBounds n = true ∧ memPoint n o = false ∧
          memPoint n v = false
  | [], q, v => ⟨[], by simp [floodPush]⟩
  | n :: ms, q, v => by
    rw [floodPush]
    by_cases hc : inBounds n && (!memPoint n v && !memPoint n o)
    · rw [if_pos hc]
      simp only [Bool.and_eq_true, Bool.not_eq_true'] at hc
      obtain ⟨new, h1, h2, h3⟩ := floodPush_decomp (o := o) (s := ms)
        (q := q ++ [n]) (v := n :: v)
      refine ⟨n :: new, by simpa using h1, by
        simp only [List.length_cons] at h2
        simp only [List.length_cons]
        omega, ?_⟩
      intro n' hn'
      rcases List.mem_cons.mp hn' with rfl | hn'
      · exact ⟨List.mem_cons_self _ _, hc.1, hc.2.2, hc.2.1⟩
      · obtain ⟨hm, hib, hob, hf⟩ := h3 n' hn'
        refine ⟨List.mem_cons_of_mem _ hm, hib, hob, ?_⟩
        rw [memPoint_cons, Bool.or_eq_false_iff] at hf
        exact hf.2
    · rw [if_neg hc]
      obtain ⟨new, h1, h2, h3⟩ := floodPush_decomp (o := o) (s := ms)
        (q := q) (v := v)
      exact ⟨new, h1, h2, fun n' hn' =>
        let ⟨hm, hib, hob, hf⟩ := h3 n' hn'
        ⟨List.mem_cons_of_mem _ hm, hib, hob, hf⟩⟩

theorem floodPush_nodup {obs : List Point} :
    ∀ {ms q v : List Point}, v.Nodup → (floodPush obs ms q v).2.Nodup
  | [], _, _, h => h
  | n :: ms, q, v, h => by
    rw [floodPush]
    by_cases hc : inBounds n && (!memPoint n v && !memPoint n obs)
    · rw [if_pos hc]
      simp only [Bool.and_eq_true, Bool.not_eq_true'] at hc
      refine floodPush_nodup (List.nodup_cons.mpr ⟨?_, h⟩)
      intro hmem
      rw [memPoint_eq_false] at hc
      exact hc.2.1 hmem
    · rw [if_neg hc]
      exact floodPush_nodup h

theorem floodPush_mu {obs : List Point} :
    ∀ {ms q v : List Point},
      (boardCells \ (floodPush obs ms q v).2.toFinset).card +
        (floodPush obs ms q v).1.length ≤
      (boardCells \ v.toFinset).card + q.length
  | [], _, _ => Nat.le_refl _
  | n :: ms, q, v => by
    rw [floodPush]
    by_cases hc : inBounds n && (!memPoint n v && !memPoint n obs)
    · rw [if_pos hc]
      simp only [Bool.and_eq_true, Bool.not_eq_true'] at hc
      have hmem : n ∈ boardCells \ v.toFinset := by
        rw [Finset.mem_sdiff]
        refine ⟨inBounds_mem_boardCells hc.1, ?_⟩
        rw [List.mem_toFinset]
        rw [memPoint_eq_false] at hc
        exact hc.2.1
      have hcard : (boardCells \ (n :: v).toFinset).card =
          (boardCells \ v.toFinset).card - 1 := by
        rw [List.toFinset_cons, Finset.sdiff_insert,
          Finset.card_erase_of_mem hmem]
      have hpos : 0 < (boardCells \ v.toFinset).card :=
        Finset.card_pos.mpr ⟨n, hmem⟩
      calc (boardCells \ (floodPush obs ms (q ++ [n])
              (n :: v)).2.toFinset).card +
            (floodPush obs ms (q ++ [n]) (n :: v)).1.length
          ≤ (boardCells \ (n :: v).toFinset).card + (q ++ [n]).length :=
            floodPush_mu
        _ ≤ (boardCells \ v.toFinset).card + q.length := by
            rw [hcard, List.length_append]
            simp only [List.length_cons, List.length_nil]
            omega
    · rw [if_neg hc]
      exact floodPush_mu

theorem floodInv_init (start : Point) (obs : List Point) :
    FloodInv start obs [start] [start] := by
  have hmem : memPoint start [start] = true := by
    rw [memPoint_iff]; simp
  refine ⟨?_, ?_, ?_, List.nodup_singleton _, hmem⟩
  · intro c hc
    rw [memPoint_iff] at hc
    simp only [List.mem_singleton] at hc
    subst hc
    exact ⟨[], rfl, rfl⟩
  · intro v hv hq d _ _
    exfalso
    rw [memPoint_iff] at hv
    simp only [List.mem_singleton] at hv
    subst hv
    exact hq (by simp)
  · intro e he
    simp only [List.mem_singleton] at he
    subst he
    exact hmem

/-- One flood-fill iteration preserves the invariant. -/
theorem floodInv_preserved {start current : Point} {obs : List Point}
    {rest visited : List Point}
    (inv : FloodInv start obs (current :: rest) visited) :
    FloodInv start obs
      (floodPush obs [⟨current.x, current.y - 1⟩,
        ⟨current.x, current.y + 1⟩, ⟨current.x - 1, current.y⟩,
        ⟨current.x + 1, current.y⟩] rest visited).1
      (floodPush obs [⟨current.x, current.y - 1⟩,
        ⟨current.x, current.y + 1⟩, ⟨current.x - 1, current.y⟩,
        ⟨current.x + 1, current.y⟩] rest visited).2 := by
  obtain ⟨new, hq, _, hnew⟩ := @floodPush_decomp obs
    [(⟨current.x, current.y - 1⟩ : Point),
      ⟨current.x, current.y + 1⟩, ⟨current.x - 1, current.y⟩,
      ⟨current.x + 1, current.y⟩] rest visited
  have hcur : memPoint current visited = true :=
    inv.qsub current (List.mem_cons_self _ _)
  have hrest_mem : ∀ e ∈ rest,
      e ∈ (floodPush obs [(⟨current.x, current.y - 1⟩ : Point),
        ⟨current.x, current.y + 1⟩, ⟨current.x - 1, current.y⟩,
        ⟨current.x + 1, current.y⟩] rest visited).1 := by
    intro e he
    rw [hq]
    exact List.mem_append_left _ he
  refine ⟨?_, ?_, ?_, floodPush_nodup inv.vnodup,
    floodPush_visited_mono inv.startv⟩
  · intro c hc
    rcases floodPush_visited_cases hc with hc | hc
    · exact inv.reach c hc
    · rw [hq] at hc
      rcases List.mem_append.mp hc with hc | hc
      · exact inv.reach c (inv.qsub c (List.mem_cons_of_mem _ hc))
      · obtain ⟨hm, hib, hob, _⟩ := hnew c hc
        obtain ⟨d, hd⟩ := mem_floodMoves.mp hm
        obtain ⟨σ, hσv, hσe⟩ := inv.reach current hcur
        refine ⟨σ ++ [d], ?_, ?_⟩
        · rw [validWalkB_append_single, hσv, hσe, hd, hib, hob]
          rfl
        · rw [walkEnd_append_single, hσe, hd]
  · intro v hv hvq d hib hob
    rcases floodPush_visited_cases hv with hvis | hvis
    · by_cases hvc : v = current
      · subst hvc
        refine floodPush_scanned (step v d) ?_ hib hob
        exact mem_floodMoves.mpr ⟨d, rfl⟩
      · by_cases hvr : v ∈ rest
        · exact absurd (hrest_mem v hvr) hvq
        · refine floodPush_visited_mono ?_
          refine inv.expanded v hvis ?_ d hib hob
          intro hmem
          rcases List.mem_cons.mp hmem with h | h
          · exact hvc h
          · exact hvr h
    · exact absurd hvis hvq
  · intro e he
    rw [hq] at he
    rcases List.mem_append.mp he with he | he
    · exact floodPush_visited_mono
        (inv.qsub e (List.mem_cons_of_mem _ he))
    · obtain ⟨hm, hib, hob, _⟩ := hnew e he
      exact floodPush_scanned e hm hib hob

/-- A finished flood fill has counted exactly one dequeue per visited cell,
and the visited list is precisely the set of reachable cells. -/
theorem getAreaAux_some (start : Point) (obs : List Point) :
    ∀ (fuel : Nat) (queue visited : List Point) (count n : Nat),
      FloodInv start obs queue visited →
      count + queue.length = visited.length →
      getAreaAux obs fuel queue visited count = some n →
      ∃ V : List Point, V.Nodup ∧ n = V.length ∧
        ∀ c, c ∈ V ↔ Reachable start obs c := by
  intro fuel
  induction fuel with
  | zero =>
    intro queue visited count n _ _ h
    simp [getAreaAux] at h
  | succ fuel ih =>
    intro queue visited count n inv hcount h
    match queue with
    | [] =>
      simp only [getAreaAux, Option.some.injEq] at h
      subst h
      refine ⟨visited, inv.vnodup, by
        simpa using hcount, ?_⟩
      intro c
      constructor
      · intro hc
        exact inv.reach c (memPoint_iff.mpr hc)
      · rintro ⟨σ, hσv, hσe⟩
        have hcl : ∀ v, memPoint v visited = true → ∀ d,
            inBounds (step v d) = true → memPoint (step v d) obs = false →
            memPoint (step v d) visited = true := by
          intro v hv d hib hob
          exact inv.expanded v hv (List.not_mem_nil v) d hib hob
        have := closure_walk hcl σ start inv.startv hσv
        rw [hσe] at this
        exact memPoint_iff.mp this
    | current :: rest =>
      simp only [getAreaAux] at h
      obtain ⟨new, hq, hlen, _⟩ := @floodPush_decomp obs
        [(⟨current.x, current.y - 1⟩ : Point),
          ⟨current.x, current.y + 1⟩, ⟨current.x - 1, current.y⟩,
          ⟨current.x + 1, current.y⟩] rest visited
      refine ih _ _ _ _ (floodInv_preserved inv) ?_ h
      rw [hq, hlen, List.length_append]
      simp only [List.length_cons] at hcount
      omega

theorem getAreaAux_fuel (obs : List Point) :
    ∀ (fuel : Nat) (queue visited : List Point) (count : Nat),
      (boardCells \ visited.toFinset).card + queue.length < fuel →
      getAreaAux obs fuel queue visited count ≠ none := by
  intro fuel
  induction fuel with
  | zero => intro queue visited count h; omega
  | succ fuel ih =>
    intro queue visited count h
    match queue with
    | [] => simp [getAreaAux]
    | current :: rest =>
      simp only [getAreaAux]
      refine ih _ _ _ ?_
      have hmu := @floodPush_mu obs
        [(⟨current.x, current.y - 1⟩ : Point),
          ⟨current.x, current.y + 1⟩, ⟨current.x - 1, current.y⟩,
          ⟨current.x + 1, current.y⟩] rest visited
      simp only [List.length_cons] at h
      omega

/-- The flood-fill count is the number of reachable cells: there is a
duplicate-free list of exactly the reachable cells whose length is the
returned count. -/
theorem getAccessibleAreaSize_spec (start : Point) (obs : List Point) :
    ∃ V : List Point, V.Nodup ∧ getAccessibleAreaSize start obs = V.length ∧
      ∀ c, c ∈ V ↔ Reachable start obs c := by
  have hne : getAreaAux obs 1000 [start] [start] 0 ≠ none := by
    refine getAreaAux_fuel obs 1000 _ _ _ ?_
    have h1 : (boardCells \ [start].toFinset).card ≤ 625 :=
      le_trans (Finset.card_le_card (Finset.sdiff_subset)) boardCells_card_le
    simp only [List.length_cons, List.length_nil]
    omega
  cases haux : getAreaAux obs 1000 [start] [start] 0 with
  | none => exact absurd haux hne
  | some n =>
    obtain ⟨V, h1, h2, h3⟩ := getAreaAux_some start obs 1000 [start] [start]
      0 n (floodInv_init start obs) (by simp) haux
    refine ⟨V, h1, ?_, h3⟩
    rw [getAccessibleAreaSize, haux]
    exact h2

/-! ## Reachability agrees with the grid-graph component -/

/-- The end of a nonempty valid walk is a free cell. -/
theorem validWalk_end_free {obs : List Point} :
    ∀ {σ : List Direction} {start : Point}, validWalkB start σ obs = true →
      σ ≠ [] → cellFree obs (walkEnd start σ) := by
  intro σ
  induction σ with
  | nil => intro start _ hne; exact absurd rfl hne
  | cons d σ ih =>
    intro start hv _
    rw [validWalkB] at hv
    simp only [Bool.and_eq_true, Bool.not_eq_true'] at hv
    rw [walkEnd_cons]
    rcases eq_or_ne σ [] with rfl | hne
    · exact ⟨hv.1.1, hv.1.2⟩
    · exact ih hv.2 hne

/-- With a free in-bounds start, reachability by valid walks is exactly
membership of the reflexive-transitive closure of free-cell adjacency — the
connected component of `start` in the grid graph with obstacles removed. -/
theorem reachable_iff_component {start : Point} {obs : List Point}
    (hs : cellFree obs start) (c : Point) :
    Reachable start obs c ↔ Relation.ReflTransGen (adjFree obs) start c := by
  constructor
  · rintro ⟨σ, hσv, hσe⟩
    induction σ using List.reverseRecOn generalizing c with
    | nil =>
      rw [← hσe]
      exact Relation.ReflTransGen.refl
    | append_singleton σ₀ d ihσ =>
      rw [validWalkB_append_single] at hσv
      simp only [Bool.and_eq_true, Bool.not_eq_true'] at hσv
      obtain ⟨hσ₀v, hib, hob⟩ := hσv
      rw [walkEnd_append_single] at hσe
      rw [hσe] at hib hob
      refine Relation.ReflTransGen.tail (ihσ (walkEnd start σ₀) hσ₀v rfl) ?_
      have hfree : cellFree obs (walkEnd start σ₀) := by
        rcases eq_or_ne σ₀ [] with rfl | hne
        · exact hs
        · exact validWalk_end_free hσ₀v hne
      exact ⟨hfree, ⟨hib, hob⟩, ⟨d, hσe⟩⟩
  · intro h
    induction h with
    | refl => exact ⟨[], rfl, rfl⟩
    | tail hab hbc ih =>
      obtain ⟨σ, hσv, hσe⟩ := ih
      obtain ⟨_, ⟨hib, hob⟩, ⟨d, hd⟩⟩ := hbc
      refine ⟨σ ++ [d], ?_, ?_⟩
      · rw [validWalkB_append_single, hσv, hσe, hd, hib, hob]
        rfl
      · rw [walkEnd_append_single, hσe, hd]

/-! ## Properties of the decision-policy stages -/

theorem mem_validMoves {snake : List Point} {d : Direction} {q : Point} :
    (d, q) ∈ validMoves snake ↔
      q = step (headPt snake) d ∧ inBounds q = true ∧
      (∀ n, neckOpt snake = some n → isSamePoint q n = false) ∧
      memPoint q snake.dropLast = false := by
  rw [validMoves, List.mem_filter]
  rw [possibleMoves]
  constructor
  · rintro ⟨hmem, hcond⟩
    obtain hq := mem_moveTable.mp hmem
    simp only [Bool.and_eq_true, Bool.not_eq_true'] at hcond
    refine ⟨hq, hcond.1.1, ?_, hcond.2⟩
    intro n hn
    rw [hn] at hcond
    simpa using hcond.1.2
  · rintro ⟨hq, hib, hneck, hbody⟩
    refine ⟨mem_moveTable.mpr hq, ?_⟩
    simp only [Bool.and_eq_true, Bool.not_eq_true']
    refine ⟨⟨hib, ?_⟩, hbody⟩
    cases hn : neckOpt snake with
    | none => rfl
    | some n => simpa using hneck n hn

theorem validMoves_fst_sublist (snake : List Point) :
    ((validMoves snake).map Prod.fst).Sublist
      [Direction.UP, Direction.DOWN, Direction.LEFT, Direction.RIGHT] := by
  have h1 : (validMoves snake).Sublist (possibleMoves snake) :=
    List.filter_sublist _
  have h2 := h1.map Prod.fst
  rw [possibleMoves, moveTable] at h2
  exact h2

theorem validMoves_fst_nodup (snake : List Point) :
    ((validMoves snake).map Prod.fst).Nodup :=
  (validMoves_fst_sublist snake).nodup (by decide)

theorem safeEval_some {snake : List Point} {food : Point}
    {m : Direction × Point} {x : Direction × Option Nat}
    (h : safeEval snake food m = some x) :
    x.1 = m.1 ∧
    getPath m.2 (virtualTail snake food m.2)
      (virtualObstacles snake food m.2) ≠ none ∧
    x.2 = (getPath m.2 food (virtualObstacles snake food m.2)).map
      List.length := by
  rw [safeEval] at h
  cases hp : getPath m.2 (virtualTail snake food m.2)
      (virtualObstacles snake food m.2) with
  | none => rw [hp] at h; exact absurd h (by simp)
  | some w =>
    rw [hp] at h
    simp only [Option.some.injEq] at h
    subst h
    exact ⟨rfl, by simp, rfl⟩

theorem safeMoves_fst_sublist (snake : List Point) (food : Point) :
    ((safeMoves snake food).map Prod.fst).Sublist
      ((validMoves snake).map Prod.fst) := by
  rw [safeMoves]
  generalize validMoves snake = l
  induction l with
  | nil => simp
  | cons m t ih =>
    rw [List.filterMap_cons]
    cases hm : safeEval snake food m with
    | none =>
      simp only [List.map_cons]
      exact ih.cons _
    | some x =>
      simp only [List.map_cons]
      rw [(safeEval_some hm).1]
      exact ih.cons₂ _

theorem mem_safeMoves {snake : List Point} {food : Point}
    {x : Direction × Option Nat} :
    x ∈ safeMoves snake food ↔
      ∃ m ∈ validMoves snake, safeEval snake food m = some x := by
  rw [safeMoves, List.mem_filterMap]

theorem mem_movesWithFood {snake : List Point} {food : Point}
    {x : Direction × Option Nat} :
    x ∈ movesWithFood snake food ↔
      x ∈ safeMoves snake food ∧ x.2.isSome := by
  rw [movesWithFood, List.mem_filter]

/-- The argmin fold of Strategy A returns the first element of minimal key. -/
theorem foldl_min_spec {α : Type} (key : α → Nat) :
    ∀ (l : List α) (m : α),
      ∃ l₁ x l₂, m :: l = l₁ ++ x :: l₂ ∧
        (l.foldl (fun best y => if key y < key best then y else best) m) =
          x ∧
        (∀ y ∈ m :: l, key x ≤ key y) ∧ (∀ y ∈ l₁, key x < key y) := by
  intro l
  induction l with
  | nil =>
    intro m
    exact ⟨[], m, [], rfl, rfl, by
      intro y hy
      simp only [List.mem_singleton] at hy
      subst hy
      exact Nat.le_refl _, by simp⟩
  | cons z l ih =>
    intro m
    rw [List.foldl_cons]
    by_cases hz : key z < key m
    · rw [if_pos hz]
      obtain ⟨l₁, x, l₂, hdec, hres, hmin, hstrict⟩ := ih z
      refine ⟨m :: l₁, x, l₂, by rw [List.cons_append, ← hdec], hres, ?_, ?_⟩
      · intro y hy
        rcases List.mem_cons.mp hy with rfl | hy
        · have : key x ≤ key z := hmin z (List.mem_cons_self _ _)
          omega
        · exact hmin y hy
      · intro y hy
        rcases List.mem_cons.mp hy with rfl | hy
        · have : key x ≤ key z := hmin z (List.mem_cons_self _ _)
          omega
        · exact hstrict y hy
    · rw [if_neg hz]
      obtain ⟨l₁, x, l₂, hdec, hres, hmin, hstrict⟩ := ih m
      cases l₁ with
      | nil =>
        simp only [List.nil_append, List.cons.injEq] at hdec
        obtain ⟨hx, hl⟩ := hdec
        refine ⟨[], x, z :: l, by simp [hx], hres,
          ?_, by simp⟩
        intro y hy
        rcases List.mem_cons.mp hy with rfl | hy
        · rw [hx]
        · rcases List.mem_cons.mp hy with rfl | hy
          · have h1 : key x ≤ key m := hmin m (List.mem_cons_self _ _)
            omega
          · exact hmin y (List.mem_cons_of_mem _ hy)
      | cons a l₁' =>
        simp only [List.cons_append, List.cons.injEq] at hdec
        obtain ⟨ham, hl⟩ := hdec
        have hstr_a : key x < key m :=
          ham ▸ hstrict a (List.mem_cons_self _ _)
        refine ⟨m :: z :: l₁', x, l₂, by simp [hl], hres, ?_, ?_⟩
        · intro y hy
          rcases List.mem_cons.mp hy with rfl | hy
          · exact hmin y (List.mem_cons_self _ _)
          · rcases List.mem_cons.mp hy with rfl | hy
            · omega
            · exact hmin y (List.mem_cons_of_mem _ hy)
        · intro y hy
          rcases List.mem_cons.mp hy with rfl | hy
          · exact hstr_a
          · rcases List.mem_cons.mp hy with rfl | hy
            · omega
            · exact hstrict y (List.mem_cons_of_mem _ hy)

/-- The argmax fold of Strategies B and C (with sentinel `-1`) either keeps
its initial accumulator because nothing beats it, or returns the first
element of maximal key. -/
theorem foldl_max_spec {α β : Type} (key : α → Int) (tag : α → β) :
    ∀ (l : List α) (acc : β × Int),
      (l.foldl (fun acc x => if acc.2 < key x then (tag x, key x) else acc)
          acc = acc ∧ ∀ y ∈ l, key y ≤ acc.2) ∨
      (∃ l₁ x l₂, l = l₁ ++ x :: l₂ ∧
        l.foldl (fun acc x => if acc.2 < key x then (tag x, key x) else acc)
          acc = (tag x, key x) ∧
        acc.2 < key x ∧ (∀ y ∈ l, key y ≤ key x) ∧
        (∀ y ∈ l₁, key y < key x)) := by
  intro l
  induction l with
  | nil => intro acc; exact Or.inl ⟨rfl, by simp⟩
  | cons z l ih =>
    intro acc
    rw [List.foldl_cons]
    by_cases hz : acc.2 < key z
    · rw [if_pos hz]
      rcases ih (tag z, key z) with ⟨hres, hbound⟩ | ⟨l₁, x, l₂, hdec, hres,
        hlt, hmax, hstrict⟩
      · refine Or.inr ⟨[], z, l, rfl, hres, hz, ?_, by simp⟩
        intro y hy
        rcases List.mem_cons.mp hy with rfl | hy
        · exact Int.le_refl _
        · exact hbound y hy
      · refine Or.inr ⟨z :: l₁, x, l₂, by simp [hdec], hres, ?_, ?_, ?_⟩
        · omega
        · intro y hy
          rcases List.mem_cons.mp hy with rfl | hy
          · omega
          · exact hmax y hy
        · intro y hy
          rcases List.mem_cons.mp hy with rfl | hy
          · omega
          · exact hstrict y hy
    · rw [if_neg hz]
      push_neg at hz
      rcases ih acc with ⟨hres, hbound⟩ | ⟨l₁, x, l₂, hdec, hres, hlt, hmax,
        hstrict⟩
      · refine Or.inl ⟨hres, ?_⟩
        intro y hy
        rcases List.mem_cons.mp hy with rfl | hy
        · exact hz
        · exact hbound y hy
      · refine Or.inr ⟨z :: l₁, x, l₂, by simp [hdec], hres, hlt, ?_, ?_⟩
        · intro y hy
          rcases List.mem_cons.mp hy with rfl | hy
          · omega
          · exact hmax y hy
        · intro y hy
          rcases List.mem_cons.mp hy with rfl | hy
          · omega
          · exact hstrict y hy

/-- Strategy A returns the first safe-with-food candidate of minimal
distance. -/
theorem selectMinDist_spec {l : List (Direction × Option Nat)} (h : l ≠ []) :
    ∃ l₁ x l₂, l = l₁ ++ x :: l₂ ∧ selectMinDist l = some x.1 ∧
      (∀ y ∈ l, x.2.getD 0 ≤ y.2.getD 0) ∧
      (∀ y ∈ l₁, x.2.getD 0 < y.2.getD 0) := by
  cases l with
  | nil => exact absurd rfl h
  | cons m rest =>
    obtain ⟨l₁, x, l₂, hdec, hres, hmin, hstrict⟩ :=
      foldl_min_spec (fun y => y.2.getD 0) rest m
    refine ⟨l₁, x, l₂, hdec, ?_, hmin, hstrict⟩
    rw [selectMinDist, hres]

/-- Strategy B returns the first safe candidate of maximal flood-fill
score. -/
theorem tier2Choice_spec {snake : List Point} {food : Point}
    (h : safeMoves snake food ≠ []) :
    ∃ l₁ x l₂, safeMoves snake food = l₁ ++ x :: l₂ ∧
      tier2Choice snake food = some x.1 ∧
      (∀ y ∈ safeMoves snake food,
        tier2Space snake food y.1 ≤ tier2Space snake food x.1) ∧
      (∀ y ∈ l₁, tier2Space snake food y.1 < tier2Space snake food x.1) := by
  cases hs : safeMoves snake food with
  | nil => exact absurd hs h
  | cons sm rest =>
    rcases foldl_max_spec
        (fun (y : Direction × Option Nat) =>
          ((tier2Space snake food y.1 : Nat) : Int))
        (fun y => y.1) (sm :: rest) (sm.1, -1) with
      ⟨_, hbound⟩ | ⟨l₁, x, l₂, hdec, hres, _, hmax, hstrict⟩
    · exfalso
      have := hbound sm (List.mem_cons_self _ _)
      have h0 : (0 : Int) ≤ ((tier2Space snake food sm.1 : Nat) : Int) :=
        Int.natCast_nonneg _
      omega
    · refine ⟨l₁, x, l₂, hdec, ?_, ?_, ?_⟩
      · simp only [tier2Choice, hs]
        rw [hres]
      · intro y hy
        have := hmax y hy
        exact_mod_cast this
      · intro y hy
        have := hstrict y hy
        exact_mod_cast this

/-- Strategy C always produces a direction once a valid move exists. -/
theorem tier3Choice_some {snake : List Point} (h : validMoves snake ≠ []) :
    ∃ d, tier3Choice snake = some d := by
  rw [tier3Choice]
  cases hfold : ((validMoves snake).foldl
      (fun (acc : Option Direction × Int) m =>
        if acc.2 < ((getAccessibleAreaSize m.2 snake.dropLast : Nat) : Int)
        then (some m.1, ((getAccessibleAreaSize m.2 snake.dropLast :
          Nat) : Int))
        else acc) (none, -1)).1 with
  | some d => exact ⟨d, rfl⟩
  | none =>
    cases hv : validMoves snake with
    | nil => exact absurd hv h
    | cons m rest => exact ⟨m.1, by simp⟩

/-- The control flow of `getNextAutoMove`: the `None` case. -/
theorem getNextAutoMove_none_iff (snake : List Point) (food : Point) :
    getNextAutoMove snake food = none ↔ validMoves snake = [] := by
  constructor
  · intro h
    by_contra hv
    rw [getNextAutoMove, if_neg (by simpa [List.isEmpty_iff] using hv)] at h
    cases hsel : selectMinDist (movesWithFood snake food) with
    | some d => rw [hsel] at h; exact absurd h (by simp)
    | none =>
      rw [hsel] at h
      cases ht2 : tier2Choice snake food with
      | some d => rw [ht2] at h; exact absurd h (by simp)
      | none =>
        rw [ht2] at h
        obtain ⟨d, hd⟩ := tier3Choice_some hv
        rw [hd] at h
        exact absurd h (by simp)
  · intro h
    rw [getNextAutoMove, if_pos (by simp [h])]

/-- The control flow of `getNextAutoMove`: Tier 1 applies when a safe
candidate sees the food. -/
theorem getNextAutoMove_eq_tier1 {snake : List Point} {food : Point}
    (hm : movesWithFood snake food ≠ []) :
    getNextAutoMove snake food = selectMinDist (movesWithFood snake food)
    := by
  have hs : safeMoves snake food ≠ [] := by
    intro h
    rw [movesWithFood, h] at hm
    exact hm rfl
  have hv : validMoves snake ≠ [] := by
    intro h
    rw [safeMoves, h] at hs
    exact hs rfl
  rw [getNextAutoMove, if_neg (by simpa [List.isEmpty_iff] using hv)]
  cases hmw : movesWithFood snake food with
  | nil => exact absurd hmw hm
  | cons m rest => rw [selectMinDist]

/-- The control flow of `getNextAutoMove`: Tier 2 applies when safe moves
exist and none of them sees the food. -/
theorem getNextAutoMove_eq_tier2 {snake : List Point} {food : Point}
    (hm : movesWithFood snake food = [])
    (hs : safeMoves snake food ≠ []) :
    getNextAutoMove snake food = tier2Choice snake food := by
  have hv : validMoves snake ≠ [] := by
    intro h
    rw [safeMoves, h] at hs
    exact hs rfl
  rw [getNextAutoMove, if_neg (by simpa [List.isEmpty_iff] using hv), hm]
  cases hsm : safeMoves snake food with
  | nil => exact absurd hsm hs
  | cons sm rest =>
    rw [selectMinDist, tier2Choice, hsm]

/-- The control flow of `getNextAutoMove`: Tier 3 applies when no candidate
is safe. -/
theorem getNextAutoMove_eq_tier3 {snake : List Point} {food : Point}
    (hv : validMoves snake ≠ []) (hs : safeMoves snake food = []) :
    getNextAutoMove snake food = tier3Choice snake := by
  have hm : movesWithFood snake food = [] := by
    rw [movesWithFood, hs]
    rfl
  rw [getNextAutoMove, if_neg (by simpa [List.isEmpty_iff] using hv), hm]
  rw [selectMinDist, tier2Choice, hs]

theorem isSamePoint_eq_false {p q : Point} :
    isSamePoint p q = false ↔ p ≠ q := by
  simp only [ne_eq, ← isSamePoint_iff]
  cases isSamePoint p q <;> simp

theorem inBounds_iff {p : Point} :
    inBounds p = true ↔ 0 ≤ p.x ∧ p.x < 25 ∧ 0 ≤ p.y ∧ p.y < 25 := by
  rw [inBounds, BOARD_WIDTH, BOARD_HEIGHT]
  simp only [Bool.not_eq_true', Bool.or_eq_false_iff,
    decide_eq_false_iff_not, not_lt, not_le]
  constructor
  · rintro ⟨⟨⟨h1, h2⟩, h3⟩, h4⟩
    exact ⟨h1, h2, h3, h4⟩
  · rintro ⟨h1, h2, h3, h4⟩
    exact ⟨⟨⟨h1, h2⟩, h3⟩, h4⟩

/-- Any in-bounds cell of the 25×25 board has, for every direction, a second
in-bounds neighbor in a different direction. -/
theorem exists_second_inbounds {p : Point} (hp : inBounds p = true)
    (d : Direction) : ∃ dd, dd ≠ d ∧ inBounds (step p dd) = true := by
  obtain ⟨hx0, hxW, hy0, hyH⟩ := inBounds_iff.mp hp
  cases d with
  | UP =>
    by_cases hx : p.x + 1 < 25
    · exact ⟨Direction.RIGHT, by simp, inBounds_iff.mpr
        (by simp [step]; omega)⟩
    · exact ⟨Direction.LEFT, by simp, inBounds_iff.mpr
        (by simp [step]; omega)⟩
  | DOWN =>
    by_cases hx : p.x + 1 < 25
    · exact ⟨Direction.RIGHT, by simp, inBounds_iff.mpr
        (by simp [step]; omega)⟩
    · exact ⟨Direction.LEFT, by simp, inBounds_iff.mpr
        (by simp [step]; omega)⟩
  | LEFT =>
    by_cases hy : p.y + 1 < 25
    · exact ⟨Direction.DOWN, by simp, inBounds_iff.mpr
        (by simp [step]; omega)⟩
    · exact ⟨Direction.UP, by simp, inBounds_iff.mpr
        (by simp [step]; omega)⟩
  | RIGHT =>
    by_cases hy : p.y + 1 < 25
    · exact ⟨Direction.DOWN, by simp, inBounds_iff.mpr
        (by simp [step]; omega)⟩
    · exact ⟨Direction.UP, by simp, inBounds_iff.mpr
        (by simp [step]; omega)⟩

/-- Emptiness of the candidate pool, characterized over directions. -/
theorem validMoves_eq_nil_iff (snake : List Point) :
    validMoves snake = [] ↔
    ∀ d : Direction, ¬ (inBounds (step (headPt snake) d) = true ∧
      (∀ n, neckOpt snake = some n → step (headPt snake) d ≠ n) ∧
      memPoint (step (headPt snake) d) snake.dropLast = false) := by
  constructor
  · intro h d ⟨hib, hneck, hbody⟩
    have hmem : (d, step (headPt snake) d) ∈ validMoves snake := by
      refine mem_validMoves.mpr ⟨rfl, hib, ?_, hbody⟩
      intro n hn
      exact isSamePoint_eq_false.mpr (hneck n hn)
    rw [h] at hmem
    exact List.not_mem_nil _ hmem
  · intro h
    by_contra hne
    obtain ⟨⟨d, q⟩, hmem⟩ := List.exists_mem_of_ne_nil _ hne
    obtain ⟨hq, hib, hneck, hbody⟩ := mem_validMoves.mp hmem
    subst hq
    refine h d ⟨hib, ?_, hbody⟩
    intro n hn
    exact isSamePoint_eq_false.mp (hneck n hn)

/-- Whatever tier produced it, a returned direction is the direction of some
valid move. -/
theorem getNextAutoMove_some_dir {snake : List Point} {food : Point}
    {d : Direction} (h : getNextAutoMove snake food = some d) :
    ∃ m ∈ validMoves snake, m.1 = d := by
  have hv : validMoves snake ≠ [] := by
    intro hnil
    rw [(getNextAutoMove_none_iff snake food).mpr hnil] at h
    exact absurd h (by simp)
  cases hmw : movesWithFood snake food with
  | cons mw rest =>
    rw [getNextAutoMove_eq_tier1 (by rw [hmw]; simp)] at h
    obtain ⟨l₁, x, l₂, hdec, hres, _, _⟩ :=
      selectMinDist_spec (l := movesWithFood snake food) (by rw [hmw]; simp)
    rw [hres] at h
    simp only [Option.some.injEq] at h
    subst h
    have hx : x ∈ movesWithFood snake food := by
      rw [hdec]
      exact List.mem_append_right _ (List.mem_cons_self _ _)
    obtain ⟨hxs, _⟩ := mem_movesWithFood.mp hx
    obtain ⟨m, hm, hev⟩ := mem_safeMoves.mp hxs
    exact ⟨m, hm, ((safeEval_some hev).1).symm⟩
  | nil =>
    cases hsm : safeMoves snake food with
    | cons sm rest =>
      rw [getNextAutoMove_eq_tier2 hmw (by rw [hsm]; simp)] at h
      obtain ⟨l₁, x, l₂, hdec, hres, _, _⟩ :=
        @tier2Choice_spec snake food
          (by rw [hsm]; simp)
      rw [hres] at h
      simp only [Option.some.injEq] at h
      subst h
      have hx : x ∈ safeMoves snake food := by
        rw [hdec]
        exact List.mem_append_right _ (List.mem_cons_self _ _)
      obtain ⟨m, hm, hev⟩ := mem_safeMoves.mp hx
      exact ⟨m, hm, ((safeEval_some hev).1).symm⟩
    | nil =>
      rw [getNextAutoMove_eq_tier3 hv hsm] at h
      rw [tier3Choice] at h
      rcases foldl_max_spec
          (fun (m : Direction × Point) =>
            ((getAccessibleAreaSize m.2 snake.dropLast : Nat) : Int))
          (fun m => some m.1) (validMoves snake) (none, -1) with
        ⟨hres, _⟩ | ⟨l₁, x, l₂, hdec, hres, _, _, _⟩
      · rw [hres] at h
        simp only [Option.map_eq_some'] at h
        obtain ⟨m, hm, hd⟩ := h
        exact ⟨m, List.mem_of_mem_head? hm, hd⟩
      · rw [hres] at h
        simp only [Option.some.injEq] at h
        refine ⟨x, ?_, h⟩
        rw [hdec]
        exact List.mem_append_right _ (List.mem_cons_self _ _)

/-- `find?` over the valid moves retrieves the unique entry of a given
direction. -/
theorem find_validMoves {snake : List Point} {d : Direction} {q : Point}
    (h : (d, q) ∈ validMoves snake) :
    (validMoves snake).find? (fun vm => vm.1 == d) = some (d, q) := by
  have hnd := validMoves_fst_nodup snake
  revert hnd h
  generalize validMoves snake = l
  induction l with
  | nil => intro h _; exact absurd h (List.not_mem_nil _)
  | cons m t ih =>
    intro h hnd
    rw [List.map_cons, List.nodup_cons] at hnd
    by_cases hm : m.1 == d
    · rw [List.find?_cons_of_pos (p := fun vm : Direction × Point => vm.1 == d) _ hm]
      rcases List.mem_cons.mp h with rfl | hmem
      · rfl
      · exfalso
        refine hnd.1 ?_
        have hd : d = m.1 := (beq_iff_eq.mp hm).symm
        rw [hd] at hmem
        exact List.mem_map.mpr ⟨(m.1, q), hmem, rfl⟩
    · rw [List.find?_cons_of_neg _ (by simpa using hm)]
      rcases List.mem_cons.mp h with rfl | hmem
      · exact absurd (by simp) hm
      · exact ih hmem hnd.2

/-! ## The claims -/

/-- Claim C1: for every body satisfying the preconditions (non-empty,
self-non-intersecting, in-bounds) and in-bounds target outside the body, a
direction returned by `getNextAutoMove` steps the head to an in-bounds cell
not occupied by any body cell other than the current tail; and when it
returns `none`, no direction has that property. -/
theorem C1_legality (snake : List Point) (food : Point)
    (hne : snake ≠ []) (hnodup : snake.Nodup)
    (hbound : ∀ p ∈ snake, inBounds p = true)
    (hfb : inBounds food = true) (hfs : food ∉ snake) :
    (∀ d, getNextAutoMove snake food = some d →
      inBounds (step (headPt snake) d) = true ∧
      memPoint (step (headPt snake) d) snake.dropLast = false) ∧
    (getNextAutoMove snake food = none →
      ∀ d, ¬ (inBounds (step (headPt snake) d) = true ∧
        memPoint (step (headPt snake) d) snake.dropLast = false)) := by
  constructor
  · intro d h
    obtain ⟨m, hm, hd⟩ := getNextAutoMove_some_dir h
    obtain ⟨dd, q⟩ := m
    simp only at hd
    subst hd
    obtain ⟨hq, hib, _, hbody⟩ := mem_validMoves.mp hm
    rw [← hq]
    exact ⟨hib, hbody⟩
  · rintro h d ⟨hib, hbody⟩
    have hnil : validMoves snake = [] :=
      (getNextAutoMove_none_iff _ _).mp h
    have hall := (validMoves_eq_nil_iff snake).mp hnil d
    have hBfail : ¬ (∀ n, neckOpt snake = some n →
        step (headPt snake) d ≠ n) := by
      intro hB
      exact hall ⟨hib, hB, hbody⟩
    push_neg at hBfail
    obtain ⟨n, hn, hstep⟩ := hBfail
    have hlen2 : 1 < snake.length := by
      rw [neckOpt] at hn
      obtain ⟨hh, _⟩ := List.getElem?_eq_some_iff.mp hn
      exact hh
    by_cases hlen3 : 2 < snake.length
    · have hn1 : snake[1] = n := by
        rw [neckOpt] at hn
        obtain ⟨_, hv⟩ := List.getElem?_eq_some_iff.mp hn
        exact hv
      have h1lt : 1 < snake.dropLast.length := by
        rw [List.length_dropLast]
        omega
      have hmem : n ∈ snake.dropLast := by
        have := List.getElem_mem h1lt
        rwa [List.getElem_dropLast, hn1] at this
      rw [hstep] at hbody
      rw [memPoint_eq_false] at hbody
      exact hbody hmem
    · have hlen : snake.length = 2 := by omega
      obtain ⟨a, b, rfl⟩ := List.length_eq_two.mp hlen
      have hnb : n = b := by
        rw [neckOpt] at hn
        simp at hn
        exact hn.symm
      have hainb : inBounds a = true := hbound a (by simp)
      obtain ⟨d', hd'ne, hd'ib⟩ := exists_second_inbounds hainb d
      have hmem : (d', step a d') ∈ validMoves [a, b] := by
        refine mem_validMoves.mpr ⟨rfl, hd'ib, ?_, ?_⟩
        · intro nn hnn
          have hnnb : nn = b := by
            rw [neckOpt] at hnn
            simp at hnn
            exact hnn.symm
          rw [hnnb, isSamePoint_eq_false]
          intro heq
          apply hd'ne
          apply step_injective_dir (p := a)
          have h1 : step a d = b := by
            have h2 : step (headPt [a, b]) d = n := hstep
            rw [hnb] at h2
            exact h2
          rw [h1]
          exact heq
        · show memPoint (step a d') ([a, b] : List Point).dropLast = false
          have hdl : ([a, b] : List Point).dropLast = [a] := rfl
          rw [hdl, memPoint_eq_false]
          intro hmm
          simp only [List.mem_singleton] at hmm
          exact step_ne_self a d' hmm
      rw [hnil] at hmem
      exact List.not_mem_nil _ hmem

/-- Witness for C1 at scenario A. -/
theorem C1_legality_witness :
    inBounds (step (headPt scenarioABody) Direction.UP) = true ∧
    memPoint (step (headPt scenarioABody) Direction.UP)
      scenarioABody.dropLast = false :=
  (C1_legality scenarioABody scenarioATarget (by decide) (by decide)
    (by decide) (by decide) (by decide)).1 Direction.UP (by decide)

/-- Claim C3: whenever the returned direction was selected at Tier 1 or
Tier 2 (a safe candidate exists, so the choice is made among them),
re-running the BFS pathfinder from that candidate's virtual head to its
virtual tail over the virtual body minus its last cell finds a path. -/
theorem C3_tail_reachability (snake : List Point) (food : Point)
    (d : Direction) (hs : safeMoves snake food ≠ [])
    (h : getNextAutoMove snake food = some d) :
    getPath (step (headPt snake) d)
      (virtualTail snake food (step (headPt snake) d))
      (virtualObstacles snake food (step (headPt snake) d)) ≠ none := by
  have hd : ∃ x ∈ safeMoves snake food, x.1 = d := by
    cases hmw : movesWithFood snake food with
    | cons mw rest =>
      rw [getNextAutoMove_eq_tier1 (by rw [hmw]; simp)] at h
      obtain ⟨l₁, x, l₂, hdec, hres, _, _⟩ :=
        selectMinDist_spec (l := movesWithFood snake food)
          (by rw [hmw]; simp)
      rw [hres] at h
      simp only [Option.some.injEq] at h
      refine ⟨x, ?_, h⟩
      have hx : x ∈ movesWithFood snake food := by
        rw [hdec]
        exact List.mem_append_right _ (List.mem_cons_self _ _)
      exact (mem_movesWithFood.mp hx).1
    | nil =>
      rw [getNextAutoMove_eq_tier2 hmw hs] at h
      obtain ⟨l₁, x, l₂, hdec, hres, _, _⟩ := @tier2Choice_spec snake food hs
      rw [hres] at h
      simp only [Option.some.injEq] at h
      refine ⟨x, ?_, h⟩
      rw [hdec]
      exact List.mem_append_right _ (List.mem_cons_self _ _)
  obtain ⟨x, hx, hxd⟩ := hd
  obtain ⟨m, hm, hev⟩ := mem_safeMoves.mp hx
  obtain ⟨dd, q⟩ := m
  obtain ⟨hq, _, _, _⟩ := mem_validMoves.mp hm
  obtain ⟨hd1, hd2, _⟩ := safeEval_some hev
  simp only at hd1
  rw [hxd] at hd1
  subst hd1
  rw [← hq]
  exact hd2

/-- Witness for C3 at scenario A. -/
theorem C3_tail_reachability_witness :
    getPath (step (headPt scenarioABody) Direction.UP)
      (virtualTail scenarioABody scenarioATarget
        (step (headPt scenarioABody) Direction.UP))
      (virtualObstacles scenarioABody scenarioATarget
        (step (headPt scenarioABody) Direction.UP)) ≠ none :=
  C3_tail_reachability scenarioABody scenarioATarget Direction.UP
    (by decide) (by decide)

/-- Claim C5: the move simulator builds the virtual body as
`[candidateHead] ++ body` on an eating step and
`[candidateHead] ++ body.dropLast` otherwise; the virtual tail is the last
cell of the virtual body and the safety-check obstacle set is the virtual
body minus that last cell. -/
theorem C5_simulator (snake : List Point) (food cand : Point) :
    (cand = food → virtualSnake snake food cand = [cand] ++ snake) ∧
    (cand ≠ food →
      virtualSnake snake food cand = [cand] ++ snake.dropLast) ∧
    (virtualSnake snake food cand).getLast? =
      some (virtualTail snake food cand) ∧
    virtualObstacles snake food cand =
      (virtualSnake snake food cand).dropLast := by
  have hvs : ∃ t, virtualSnake snake food cand = cand :: t := by
    rw [virtualSnake]
    by_cases h : isSamePoint cand food = true
    · rw [if_pos h]
      exact ⟨snake, rfl⟩
    · rw [if_neg h]
      exact ⟨snake.dropLast, rfl⟩
  obtain ⟨t, ht⟩ := hvs
  refine ⟨?_, ?_, ?_, rfl⟩
  · intro h
    rw [virtualSnake, if_pos (isSamePoint_iff.mpr h)]
    rfl
  · intro h
    rw [virtualSnake, if_neg (fun hh => h (isSamePoint_iff.mp hh))]
    rfl
  · rw [virtualTail, ht, List.getLast?_eq_getLast (cand :: t) (by simp),
      List.getLastD_eq_getLast?, List.getLast?_eq_getLast (cand :: t)
        (by simp)]
    rfl

/-- Witness for C5: one eating step and one non-eating step. -/
theorem C5_simulator_witness :
    virtualSnake [⟨1, 1⟩, ⟨1, 2⟩] ⟨5, 5⟩ ⟨1, 0⟩ =
      [(⟨1, 0⟩ : Point)] ++ ([⟨1, 1⟩, ⟨1, 2⟩] : List Point).dropLast ∧
    virtualSnake [⟨1, 1⟩, ⟨1, 2⟩] ⟨1, 0⟩ ⟨1, 0⟩ =
      [(⟨1, 0⟩ : Point)] ++ [⟨1, 1⟩, ⟨1, 2⟩] :=
  ⟨(C5_simulator [⟨1, 1⟩, ⟨1, 2⟩] ⟨5, 5⟩ ⟨1, 0⟩).2.1 (by decide),
   (C5_simulator [⟨1, 1⟩, ⟨1, 2⟩] ⟨1, 0⟩ ⟨1, 0⟩).1 rfl⟩

/-- Claim C6: `getPath` returns a valid path whose length is the true graph
distance (no valid path is shorter), returns `none` exactly when the goal is
unreachable, and returns the empty sequence when start equals goal. -/
theorem C6_getPath_correct (start target : Point) (obs : List Point) :
    (∀ π, getPath start target obs = some π →
      IsPathTo start target obs π ∧
      ∀ σ, IsPathTo start target obs σ → π.length ≤ σ.length) ∧
    (getPath start target obs = none ↔
      ∀ σ, ¬ IsPathTo start target obs σ) ∧
    (start = target → getPath start target obs = some []) := by
  refine ⟨?_, getPath_none_iff, ?_⟩
  · intro π h
    obtain ⟨h1, h2, _⟩ := getPath_some_spec h
    exact ⟨h1, h2⟩
  · intro h
    subst h
    exact getPath_self start obs

/-- Witness for C6: a concrete shortest path and the degenerate
start-equals-goal case. -/
theorem C6_getPath_correct_witness :
    IsPathTo ⟨0, 0⟩ ⟨2, 0⟩ [] [Direction.RIGHT, Direction.RIGHT] ∧
    getPath ⟨3, 3⟩ ⟨3, 3⟩ [⟨3, 3⟩] = some [] :=
  ⟨((C6_getPath_correct ⟨0, 0⟩ ⟨2, 0⟩ []).1
      [Direction.RIGHT, Direction.RIGHT] (by decide)).1,
   (C6_getPath_correct ⟨3, 3⟩ ⟨3, 3⟩ [⟨3, 3⟩]).2.2 rfl⟩

/-- Claim C7: `getNextAutoMove` returns `none` exactly when candidate
generation finds no legal first step (every neighbor of the head is out of
bounds, the neck cell, or a non-tail body cell); whenever a candidate
survives some direction is returned, and Tier 3 itself always yields a
direction. -/
theorem C7_failure_semantics (snake : List Point) (food : Point) :
    (getNextAutoMove snake food = none ↔
      ∀ d : Direction, ¬ (inBounds (step (headPt snake) d) = true ∧
        (∀ n, neckOpt snake = some n → step (headPt snake) d ≠ n) ∧
        memPoint (step (headPt snake) d) snake.dropLast = false)) ∧
    (validMoves snake ≠ [] →
      ∃ d, getNextAutoMove snake food = some d) ∧
    (validMoves snake ≠ [] → ∃ d, tier3Choice snake = some d) := by
  refine ⟨?_, ?_, tier3Choice_some⟩
  · rw [getNextAutoMove_none_iff]
    exact validMoves_eq_nil_iff snake
  · intro hv
    cases hg : getNextAutoMove snake food with
    | none => exact absurd ((getNextAutoMove_none_iff _ _).mp hg) hv
    | some d => exact ⟨d, rfl⟩

/-- Witness for C7 at scenario A. -/
theorem C7_failure_semantics_witness :
    ∃ d, getNextAutoMove scenarioABody scenarioATarget = some d :=
  (C7_failure_semantics scenarioABody scenarioATarget).2.1 (by decide)

/-- Claim C2: when some safe candidate has a finite virtual distance to the
food, `getNextAutoMove` returns the direction of the first such candidate of
minimal distance — candidates are ordered by the fixed enumeration UP, DOWN,
LEFT, RIGHT — and every recorded distance is the true shortest-path distance
from the candidate's virtual head to the food over the virtual obstacle set
(membership plus lower bound, i.e. `IsLeast`). -/
theorem C2_tier1_selection (snake : List Point) (food : Point)
    (h : movesWithFood snake food ≠ []) :
    ((movesWithFood snake food).map Prod.fst).Sublist
      [Direction.UP, Direction.DOWN, Direction.LEFT, Direction.RIGHT] ∧
    (∀ y ∈ movesWithFood snake food, ∃ n : Nat, y.2 = some n ∧
      IsLeast {k : Nat | ∃ σ, IsPathTo (step (headPt snake) y.1) food
        (virtualObstacles snake food (step (headPt snake) y.1)) σ ∧
        σ.length = k} n) ∧
    ∃ l₁ x l₂, movesWithFood snake food = l₁ ++ x :: l₂ ∧
      getNextAutoMove snake food = some x.1 ∧
      (∀ y ∈ movesWithFood snake food, x.2.getD 0 ≤ y.2.getD 0) ∧
      (∀ y ∈ l₁, x.2.getD 0 < y.2.getD 0) := by
  refine ⟨?_, ?_, ?_⟩
  · refine List.Sublist.trans ?_ (List.Sublist.trans
      (safeMoves_fst_sublist snake food) (validMoves_fst_sublist snake))
    rw [movesWithFood]
    exact (List.filter_sublist _).map Prod.fst
  · intro y hy
    obtain ⟨hys, hysome⟩ := mem_movesWithFood.mp hy
    obtain ⟨m, hm, hev⟩ := mem_safeMoves.mp hys
    obtain ⟨dd, q⟩ := m
    obtain ⟨hq, _, _, _⟩ := mem_validMoves.mp hm
    obtain ⟨hd1, _, hd3⟩ := safeEval_some hev
    simp only at hd1 hd3
    cases hp : getPath q food (virtualObstacles snake food q) with
    | none =>
      rw [hp] at hd3
      rw [hd3] at hysome
      exact absurd hysome (by simp)
    | some π =>
      rw [hp] at hd3
      refine ⟨π.length, by rw [hd3]; rfl, ?_⟩
      obtain ⟨hp1, hp2, _⟩ := getPath_some_spec hp
      have hstep : step (headPt snake) y.1 = q := by
        rw [hd1, hq]
      constructor
      · exact ⟨π, by rw [hstep]; exact hp1, rfl⟩
      · rintro k ⟨σ, hσ, hk⟩
        rw [hstep] at hσ
        rw [← hk]
        exact hp2 σ hσ
  · obtain ⟨l₁, x, l₂, hdec, hres, hmin, hstrict⟩ :=
      selectMinDist_spec (l := movesWithFood snake food) h
    exact ⟨l₁, x, l₂, hdec, by rw [getNextAutoMove_eq_tier1 h, hres],
      hmin, hstrict⟩

/-- Witness for C2 at scenario A. -/
theorem C2_tier1_selection_witness :
    movesWithFood scenarioABody scenarioATarget ≠ [] ∧
    ∃ l₁ x l₂,
      movesWithFood scenarioABody scenarioATarget = l₁ ++ x :: l₂ ∧
      getNextAutoMove scenarioABody scenarioATarget = some x.1 ∧
      (∀ y ∈ movesWithFood scenarioABody scenarioATarget,
        x.2.getD 0 ≤ y.2.getD 0) ∧
      (∀ y ∈ l₁, x.2.getD 0 < y.2.getD 0) :=
  ⟨by decide,
   (C2_tier1_selection scenarioABody scenarioATarget (by decide)).2.2⟩

/-- Counterexample to claim C4 as stated: on `tier2Body`/`tier2Target` —
a valid input (duplicate-free, in-bounds, chain-adjacent body; in-bounds
target outside the body) in the Tier-2 situation (safe candidates exist,
none reaches the food) — the choice prescribed by the claim (flood fill
over `obstaclesExcludingTail`) is UP, but the code returns DOWN: the source
floods over the whole virtual body, in which the virtual tail `(2,1)` is an
obstacle separating the two chambers. -/
theorem C4_counterexample :
    tier2Body.Nodup ∧ (∀ p ∈ tier2Body, inBounds p = true) ∧
    chainAdj tier2Body = true ∧
    inBounds tier2Target = true ∧ tier2Target ∉ tier2Body ∧
    movesWithFood tier2Body tier2Target = [] ∧
    safeMoves tier2Body tier2Target ≠ [] ∧
    specTier2Choice tier2Body tier2Target = some Direction.UP ∧
    getNextAutoMove tier2Body tier2Target = some Direction.DOWN := by
  decide

/-- Claim C4 as amended: in the Tier-2 situation the returned direction is
the safe candidate (enumeration-ordered) with the **first maximal** flood
fill computed over the **whole virtual body** — the candidate head and the
virtual tail included — not over `obstaclesExcludingTail`. -/
theorem C4_amended (snake : List Point) (food : Point)
    (hm : movesWithFood snake food = [])
    (hs : safeMoves snake food ≠ []) :
    ((safeMoves snake food).map Prod.fst).Sublist
      [Direction.UP, Direction.DOWN, Direction.LEFT, Direction.RIGHT] ∧
    (∀ d q, (d, q) ∈ validMoves snake →
      tier2Space snake food d =
        getAccessibleAreaSize q (virtualSnake snake food q)) ∧
    ∃ l₁ x l₂, safeMoves snake food = l₁ ++ x :: l₂ ∧
      getNextAutoMove snake food = some x.1 ∧
      (∀ y ∈ safeMoves snake food,
        tier2Space snake food y.1 ≤ tier2Space snake food x.1) ∧
      (∀ y ∈ l₁,
        tier2Space snake food y.1 < tier2Space snake food x.1) := by
  refine ⟨List.Sublist.trans (safeMoves_fst_sublist snake food)
    (validMoves_fst_sublist snake), ?_, ?_⟩
  · intro d q hdq
    rw [tier2Space, find_validMoves hdq]
  · obtain ⟨l₁, x, l₂, hdec, hres, hmax, hstrict⟩ :=
      @tier2Choice_spec snake food hs
    exact ⟨l₁, x, l₂, hdec,
      by rw [getNextAutoMove_eq_tier2 hm hs, hres], hmax, hstrict⟩

/-- Witness for the amended C4 at the chambered configuration. -/
theorem C4_amended_witness :
    ∃ l₁ x l₂, safeMoves tier2Body tier2Target = l₁ ++ x :: l₂ ∧
      getNextAutoMove tier2Body tier2Target = some x.1 ∧
      (∀ y ∈ safeMoves tier2Body tier2Target,
        tier2Space tier2Body tier2Target y.1 ≤
          tier2Space tier2Body tier2Target x.1) ∧
      (∀ y ∈ l₁, tier2Space tier2Body tier2Target y.1 <
        tier2Space tier2Body tier2Target x.1) :=
  (C4_amended tier2Body tier2Target (by decide) (by decide)).2.2

/-- Claim C8: the flood-fill counter returns exactly the size of the
connected component of `start` in the 4-directional grid graph with the
obstacle cells removed, and the count is at least 1. -/
theorem C8_floodfill (start : Point) (obs : List Point)
    (hb : inBounds start = true) (ho : memPoint start obs = false) :
    getAccessibleAreaSize start obs =
      Set.ncard {c | Relation.ReflTransGen (adjFree obs) start c} ∧
    1 ≤ getAccessibleAreaSize start obs := by
  obtain ⟨V, hnd, hlen, hmem⟩ := getAccessibleAreaSize_spec start obs
  have hset : {c | Relation.ReflTransGen (adjFree obs) start c} =
      (V.toFinset : Set Point) := by
    ext c
    simp only [Set.mem_setOf_eq, Finset.coe_sort_coe, Finset.mem_coe,
      List.mem_toFinset]
    rw [← reachable_iff_component ⟨hb, ho⟩ c]
    exact (hmem c).symm
  constructor
  · rw [hset, Set.ncard_coe_Finset, List.toFinset_card_of_nodup hnd, hlen]
  · have hstart : start ∈ V := (hmem start).mpr ⟨[], rfl, rfl⟩
    rw [hlen]
    exact List.length_pos.mpr (List.ne_nil_of_mem hstart)

/-- Witness for C8 on a concrete free start cell. -/
theorem C8_floodfill_witness :
    getAccessibleAreaSize ⟨0, 0⟩ [⟨5, 5⟩] =
      Set.ncard {c | Relation.ReflTransGen (adjFree [⟨5, 5⟩]) ⟨0, 0⟩ c} ∧
    1 ≤ getAccessibleAreaSize ⟨0, 0⟩ [⟨5, 5⟩] :=
  C8_floodfill ⟨0, 0⟩ [⟨5, 5⟩] (by decide) (by decide)

/-- Claim C9 (scenario A): with body `[(2,2),(2,3),(2,4)]` and target
`(2,0)`, the decision is made at Tier 1 (`movesWithFood` is non-empty), the
head-to-target shortest path is `[UP, UP]` of length 2, the selected
candidate is UP at virtual distance 1 (one step already taken), and
`getNextAutoMove` returns UP. -/
theorem C9_scenarioA :
    getNextAutoMove scenarioABody scenarioATarget = some Direction.UP ∧
    movesWithFood scenarioABody scenarioATarget ≠ [] ∧
    (movesWithFood scenarioABody scenarioATarget).head? =
      some (Direction.UP, some 1) ∧
    getPath (headPt scenarioABody) scenarioATarget scenarioABody =
      some [Direction.UP, Direction.UP] := by
  decide

/-- Claim C10 (implicit): a path returned by `getPath` is a valid
obstacle-avoiding walk — every cell after the start is in bounds and
unobstructed, no cell (the start included) is visited twice, and the walk
ends at the goal. -/
theorem C10_path_validity (start target : Point) (obs : List Point)
    (π : List Direction) (h : getPath start target obs = some π) :
    IsPathTo start target obs π ∧ (walkCells start π).Nodup := by
  obtain ⟨h1, _, h3⟩ := getPath_some_spec h
  exact ⟨h1, h3⟩

/-- Witness for C10 on a concrete obstructed search. -/
theorem C10_path_validity_witness :
    IsPathTo ⟨0, 0⟩ ⟨2, 0⟩ [⟨1, 0⟩]
      [Direction.DOWN, Direction.RIGHT, Direction.RIGHT, Direction.UP] ∧
    (walkCells ⟨0, 0⟩
      [Direction.DOWN, Direction.RIGHT, Direction.RIGHT,
        Direction.UP]).Nodup :=
  C10_path_validity ⟨0, 0⟩ ⟨2, 0⟩ [⟨1, 0⟩]
    [Direction.DOWN, Direction.RIGHT, Direction.RIGHT, Direction.UP]
    (by decide)

end SnakeAI
